import Mathlib

/-!
# Region tree of `tabalt/regionquery` (file `region.go`)

A shallow embedding of `Region`, `NewRegion`, `Load`, `ReLoad`, `Find` and
`dismantleCode`, followed by the properties proved about them.

Modelling conventions.

* A Go `string` or `[]byte` is the list of its bytes; `len` is `List.length`.
* A Go `int` is a 64-bit two's-complement integer (amd64, arm64): sums are
  reduced with `wrapInt`.  `len(code)` is always below `2^63` in Go.
* A run-time panic (nil dereference of `Conf`, slice bounds out of range) is the
  outcome `Outcome.panic`; a normal return is `Outcome.ret`.
* Go's multiple return `(value, error)` is a pair whose second component is
  `none` for a nil error.  A nil slice is the empty list, a nil pointer is
  `none`.
* The pointer graph below a root is a tree: a `map[string]*Region` is an
  association list read at its first binding of a key, and a child is stored by
  value.  `Sup`, which no function of the file reads, keeps only what kind of
  pointer it is.
* The pair `io.Reader` / `bufio.Scanner` is the list of lines `Scan` yields
  before it stops, together with the value of `scanner.Err()` at that point
  (`Scanner`).  `NewScanner` computes that pair from a `Reader`, the bytes it
  delivers and the error that ends them, with the split function `ScanLines`
  and the token limit of 64 KiB of `bufio.NewScanner`.
-/

namespace RegionQuery

/-! ## Data model -/

/-- Bytes of a Go `string` or `[]byte`. -/
abbrev GoString := List UInt8

/-- Go `error` values: the two package-level errors of `region.go`, the error
`bufio.ErrTooLong` of the scanner and the errors a reader can hand to the
scanner. -/
inductive GoError where
  | notFound
  | codeIncorrect
  | tooLong
  | stream (tag : Nat)
  deriving DecidableEq, Repr

/-- Source: `ErrorRegionNotFound = errors.New("region not found")`. -/
def ErrorRegionNotFound : GoError := GoError.notFound

/-- Source: `ErrorRegionCodeIncorrect = errors.New("region code incorrect")`. -/
def ErrorRegionCodeIncorrect : GoError := GoError.codeIncorrect

/-- Source: `regionFieldCount = 2`. -/
def regionFieldCount : Nat := 2

/-- Result of running a Go function: a run-time panic or a normal return. -/
inductive Outcome (α : Type) where
  | panic
  | ret (v : α)
  deriving DecidableEq, Repr

/-- Largest value of a 64-bit Go `int`. -/
def MaxInt : Int := 9223372036854775807

/-- Two's-complement reduction of an integer to the 64-bit `int` range. -/
def wrapInt (x : Int) : Int :=
  (x + 9223372036854775808) % 18446744073709551616 - 9223372036854775808

/-- Modelled from the spec: the element type of `Conf`, declared outside
`region.go`; the spec gives every entry a label and an integer width, and
`region.go` reads `cnf.Width` as an `int` and the test builds entries from `Key`
and `Width`. -/
structure ConfEntry where
  Key : GoString
  Width : Int
  deriving DecidableEq, Repr

/-- Modelled from the spec: type `Conf`, declared outside `region.go`, an ordered
sequence of entries (`region.go` ranges over it by index order). -/
abbrev Conf := List ConfEntry

/-- What the back pointer `Sup` of a node is: nil, the node under which `Load`
created this one, or some other node given to `NewRegion` by a caller. -/
inductive SupPtr where
  | nil
  | parent
  | other (addr : Nat)
  deriving DecidableEq, Repr

/-- Source: `type Region struct { Data []byte; Conf *Conf; Sup *Region;
Sub map[string]*Region }`. -/
inductive Region where
  | mk (Data : GoString) (Conf : Option Conf) (Sup : SupPtr)
      (Sub : List (GoString × Region))

namespace Region

/-- Field `Data`. -/
def Data : Region → GoString
  | mk d _ _ _ => d

/-- Field `Conf`. -/
def Conf : Region → Option RegionQuery.Conf
  | mk _ c _ _ => c

/-- Field `Sup`. -/
def Sup : Region → SupPtr
  | mk _ _ s _ => s

/-- Field `Sub`. -/
def Sub : Region → List (GoString × Region)
  | mk _ _ _ m => m

end Region

/-- Map read `m[p]` with the comma-ok form: the first binding of `p`. -/
def mapGet : List (GoString × Region) → GoString → Option Region
  | [], _ => none
  | (k, v) :: rest, p => if k = p then some v else mapGet rest p

/-- Map write `m[p] = v`: replaces the binding of `p`, or adds one. -/
def mapSet : List (GoString × Region) → GoString → Region → List (GoString × Region)
  | [], p, v => [(p, v)]
  | (k, w) :: rest, p, v => if k = p then (p, v) :: rest else (k, w) :: mapSet rest p v

/-- Source: `NewRegion`; a nil `sub` becomes an empty map. -/
def NewRegion (data : GoString) (conf : Option Conf) (sup : SupPtr)
    (sub : Option (List (GoString × Region))) : Region :=
  match sub with
  | none => Region.mk data conf sup []
  | some m => Region.mk data conf sup m

/-! ## dismantleCode -/

/-- Slice expression `code[lo:hi]` of a string; `none` is the panic
"slice bounds out of range". -/
def slice (code : GoString) (lo hi : Int) : Option GoString :=
  if 0 ≤ lo ∧ lo ≤ hi ∧ hi ≤ (code.length : Int) then
    some ((code.drop lo.toNat).take (hi - lo).toNat)
  else none

/-- The `for _, cnf := range conf` loop of `dismantleCode`, from the state
`(nw, pieces)`; returns the state at loop exit. -/
def dismantleLoop (code : GoString) :
    List ConfEntry → Int → List GoString → Outcome (Int × List GoString)
  | [], nw, pieces => Outcome.ret (nw, pieces)
  | cnf :: rest, nw, pieces =>
    let tnw := wrapInt (nw + cnf.Width)
    if tnw > (code.length : Int) then Outcome.ret (nw, pieces)
    else
      match slice code nw tnw with
      | none => Outcome.panic
      | some p => dismantleLoop code rest tnw (pieces ++ [p])

/-- Source: `func (rgn *Region) dismantleCode(code string) ([]string, error)`. -/
def dismantleCode (rgn : Region) (code : GoString) :
    Outcome (List GoString × Option GoError) :=
  match rgn.Conf with
  | none => Outcome.panic
  | some conf =>
    match dismantleLoop code conf 0 [] with
    | Outcome.panic => Outcome.panic
    | Outcome.ret (nw, pieces) =>
      if (code.length : Int) = 0 ∨ (code.length : Int) ≠ nw then
        Outcome.ret ([], some ErrorRegionCodeIncorrect)
      else Outcome.ret (pieces, none)

/-! ## Find -/

/-- The `for _, p := range pieces` loop of `Find`, from the node `nRgn`. -/
def findLoop : List GoString → Region → Option Region × Option GoError
  | [], nRgn => (some nRgn, none)
  | p :: ps, nRgn =>
    match mapGet nRgn.Sub p with
    | none => (none, some ErrorRegionNotFound)
    | some subRgn => findLoop ps subRgn

/-- Source: `func (rgn *Region) Find(code string) (*Region, error)`. -/
def Find (rgn : Region) (code : GoString) : Outcome (Option Region × Option GoError) :=
  match dismantleCode rgn code with
  | Outcome.panic => Outcome.panic
  | Outcome.ret (_, some err) => Outcome.ret (none, some err)
  | Outcome.ret (pieces, none) => Outcome.ret (findLoop pieces rgn)

/-! ## Load and ReLoad -/

/-- The byte of the separator `"\t"`. -/
def TAB : UInt8 := 9

/-- Cut of a string at the first occurrence of a separator byte. -/
def cutFirst (sep : UInt8) : GoString → Option (GoString × GoString)
  | [] => none
  | b :: rest =>
    if b = sep then some ([], rest)
    else
      match cutFirst sep rest with
      | none => none
      | some (a, d) => some (b :: a, d)

/-- Library `strings.SplitN(s, sep, n)` for a one-byte separator and `n ≥ 0`: at
most `n` substrings, the last one the unsplit remainder. -/
def SplitN (s : GoString) (sep : UInt8) : Nat → List GoString
  | 0 => []
  | 1 => [s]
  | n + 2 =>
    match cutFirst sep s with
    | none => [s]
    | some (a, rest) => a :: SplitN rest sep (n + 1)

/-- The inner loop of `Load` over the pieces of one record, with the final
assignment of `Data`, as the new value of the node it starts from. -/
def loadPieces (data : GoString) : List GoString → Region → Region
  | [], nRgn =>
    if nRgn.Data ≠ data then Region.mk data nRgn.Conf nRgn.Sup nRgn.Sub else nRgn
  | p :: ps, nRgn =>
    match mapGet nRgn.Sub p with
    | some subRgn =>
      Region.mk nRgn.Data nRgn.Conf nRgn.Sup (mapSet nRgn.Sub p (loadPieces data ps subRgn))
    | none =>
      Region.mk nRgn.Data nRgn.Conf nRgn.Sup
        (mapSet nRgn.Sub p (loadPieces data ps (NewRegion data none SupPtr.parent none)))

/-- One iteration of the `for scanner.Scan()` loop of `Load`. -/
def loadLine (rgn : Region) (line : GoString) : Outcome Region :=
  let item := SplitN line TAB regionFieldCount
  if item.length ≠ regionFieldCount then Outcome.ret rgn
  else
    let code := item.getD 0 []
    let data := item.getD 1 []
    match dismantleCode rgn code with
    | Outcome.panic => Outcome.panic
    | Outcome.ret (_, some _) => Outcome.ret rgn
    | Outcome.ret (pieces, none) => Outcome.ret (loadPieces data pieces rgn)

/-- The scanner over a reader: the lines `Scan` yields and the final
`scanner.Err()`. -/
structure Scanner where
  Lines : List GoString
  Err : Option GoError

/-- The `for scanner.Scan()` loop of `Load` over the lines still to come. -/
def loadLines : Region → List GoString → Outcome Region
  | rgn, [] => Outcome.ret rgn
  | rgn, line :: rest =>
    match loadLine rgn line with
    | Outcome.panic => Outcome.panic
    | Outcome.ret rgn1 => loadLines rgn1 rest

/-- Source: `func (rgn *Region) Load(r io.Reader) error`; returns the tree after
the call together with the error. -/
def Load (rgn : Region) (r : Scanner) : Outcome (Region × Option GoError) :=
  match loadLines rgn r.Lines with
  | Outcome.panic => Outcome.panic
  | Outcome.ret rgn1 => Outcome.ret (rgn1, r.Err)

/-- Source: `func (rgn *Region) ReLoad(r io.Reader) error`; returns the live root
after the call together with the error. -/
def ReLoad (rgn : Region) (r : Scanner) : Outcome (Region × Option GoError) :=
  match Load (NewRegion rgn.Data rgn.Conf SupPtr.nil none) r with
  | Outcome.panic => Outcome.panic
  | Outcome.ret (nRgn, err) =>
    match err with
    | some e => Outcome.ret (rgn, some e)
    | none => Outcome.ret (nRgn, none)

/-! ## Test data of `region_test.go` -/

/-- Source: `rootRegionConf`, widths `[1,2,2,2,2]`. -/
def rootRegionConf : Conf :=
  [⟨[99, 111, 110, 116, 105, 110, 101, 110, 116], 1⟩,
   ⟨[99, 111, 117, 110, 116, 114, 121], 2⟩,
   ⟨[112, 114, 111, 118, 105, 110, 99, 101], 2⟩,
   ⟨[99, 105, 116, 121], 2⟩,
   ⟨[100, 105, 115, 116, 114, 105, 99, 116], 2⟩]

/-- Source: `rootRegionData = []byte("世界\tWorld")`. -/
def rootRegionData : GoString :=
  [228, 184, 150, 231, 149, 140, 9, 87, 111, 114, 108, 100]

/-- Source: `newRegion()` of the test file. -/
def newRegion : Region := NewRegion rootRegionData (some rootRegionConf) SupPtr.nil none

/-! ## Vocabulary of the specification -/

/-- Sum of the widths of the first `k` entries of a config. -/
def headSum (conf : Conf) (k : Nat) : Int :=
  ((conf.take k).map (fun e => e.Width)).sum

/-- Every width of the config is positive. -/
def Positive (conf : Conf) : Prop := ∀ e ∈ conf, 0 < e.Width

/-- Every width of the config is non-negative. -/
def NonNeg (conf : Conf) : Prop := ∀ e ∈ conf, 0 ≤ e.Width

/-- The sum of all widths is representable as a Go `int`. -/
def Fits (conf : Conf) : Prop := (conf.map (fun e => e.Width)).sum ≤ MaxInt

/-- Glossary, "boundary-valid code": the length of the code equals the sum of the
widths of some non-empty initial run of the config entries. -/
def BoundaryValid (conf : Conf) (code : GoString) : Prop :=
  ∃ k, 1 ≤ k ∧ k ≤ conf.length ∧ (code.length : Int) = headSum conf k

/-- Consecutive substrings of `s` of the given widths, left to right. -/
def cutBy : List Int → GoString → List GoString
  | [], _ => []
  | w :: ws, s => s.take w.toNat :: cutBy ws (s.drop w.toNat)

/-- Number of entries the loop of `dismantleCode` consumes when `room` bytes of
the code are still unread. -/
def consumed : List ConfEntry → Int → Nat
  | [], _ => 0
  | e :: rest, room => if e.Width > room then 0 else consumed rest (room - e.Width) + 1

instance (conf : Conf) : Decidable (Positive conf) := by
  unfold Positive; infer_instance

instance (conf : Conf) : Decidable (NonNeg conf) := by
  unfold NonNeg; infer_instance

instance (conf : Conf) : Decidable (Fits conf) := by
  unfold Fits; infer_instance

/-! ## Concrete inputs and auxiliary notions used in the statements -/

/-- Concrete config with positive widths whose sum exceeds the `int` range. -/
def overflowConf : Conf := [⟨[], 1⟩, ⟨[], 9223372036854775807⟩]

/-- Boundary validity is decidable: the witness `k` is bounded by the number of
entries. -/
instance instDecidableBoundaryValid (conf : Conf) (code : GoString) :
    Decidable (BoundaryValid conf code) :=
  decidable_of_iff
    (∃ k, k < conf.length + 1 ∧ (1 ≤ k ∧ (code.length : Int) = headSum conf k))
    (by
      unfold BoundaryValid
      constructor
      · rintro ⟨k, hk, h1, h2⟩
        exact ⟨k, h1, by omega, h2⟩
      · rintro ⟨k, h1, h2, h3⟩
        exact ⟨k, by omega, h1, h3⟩)

/-- Concrete config with a negative width. -/
def negativeConf : Conf := [⟨[], -1⟩]

/-- The child `Load` continues with below a node: the existing one, or a new
node carrying the record's data. -/
def childOr (data : GoString) (m : List (GoString × Region)) (p : GoString) : Region :=
  match mapGet m p with
  | some subRgn => subRgn
  | none => NewRegion data none SupPtr.parent none

/-- The node reached from `r` along `ps` exists and carries the payload `d`. -/
def HasData (r : Region) (ps : List GoString) (d : GoString) : Prop :=
  ∃ n, findLoop ps r = (some n, none) ∧ n.Data = d

/-- The node at the end of a path of child keys, when every step exists. -/
def nodeAt : Region → List GoString → Option Region
  | r, [] => some r
  | r, p :: ps =>
    match mapGet r.Sub p with
    | none => none
    | some subRgn => nodeAt subRgn ps

/-- At some level of the path the node reached so far has no child keyed by the
next piece. -/
def MissingChild (r : Region) (ps : List GoString) : Prop :=
  ∃ pre p post n, ps = pre ++ p :: post ∧ nodeAt r pre = some n ∧ mapGet n.Sub p = none

/-- Concrete config whose first width is zero. -/
def zeroConf : Conf := [⟨[], 0⟩]

/-- A populated tree over the test config: the root with the single child `"1"`. -/
def treeOne : Region :=
  Region.mk rootRegionData (some rootRegionConf) SupPtr.nil
    [([49], Region.mk [65] none SupPtr.parent [])]

/-- A line `Load` skips: it has no tab, or `dismantleCode` returns an error for
the part before its first tab. -/
def malformed (rgn : Region) (line : GoString) : Bool :=
  match cutFirst TAB line with
  | none => true
  | some (code, _) =>
    match dismantleCode rgn code with
    | Outcome.ret (_, some _) => true
    | _ => false

/-- Two nodes that agree on everything but `Sup`. -/
def SameBut (a b : Region) : Prop := a.Data = b.Data ∧ a.Conf = b.Conf ∧ a.Sub = b.Sub

/-- Concrete config with positive widths whose first two entries are usable and
whose third makes the sum leave the `int` range. -/
def lateOverflowConf : Conf := [⟨[], 1⟩, ⟨[], 2⟩, ⟨[], 9223372036854775807⟩]

/-- Every slice `code[nw:tnw]` that the loop of `dismantleCode` takes from the
state `nw` on is within bounds: at each entry either the loop breaks
(`tnw > cl`) or `0 ≤ nw ≤ tnw ≤ len(code)` and the same holds from `tnw` on. -/
def slicesInRange (code : GoString) : List ConfEntry → Int → Prop
  | [], _ => True
  | cnf :: rest, nw =>
    wrapInt (nw + cnf.Width) > (code.length : Int) ∨
      (0 ≤ nw ∧ nw ≤ wrapInt (nw + cnf.Width) ∧
        wrapInt (nw + cnf.Width) ≤ (code.length : Int) ∧
        slicesInRange code rest (wrapInt (nw + cnf.Width)))

/-- A tree over `lateOverflowConf`: the root, its child `"1"` and the child
`"01"` of that node. -/
def treeLate : Region :=
  Region.mk [] (some lateOverflowConf) SupPtr.nil
    [([49], Region.mk [65] none SupPtr.parent
      [([48, 49], Region.mk [66] none SupPtr.parent [])])]

/-- Every width of the config is a value of the 64-bit type `int` from above
(the widths in the statements below are positive, so the lower bound holds). -/
def IntWidths (conf : Conf) : Prop := ∀ e ∈ conf, e.Width ≤ MaxInt

/-- Decidability of `IntWidths`, a bounded check over the entries. -/
instance instDecidableIntWidths (conf : Conf) : Decidable (IntWidths conf) := by
  unfold IntWidths; infer_instance

/-- Tree-shape invariant for the widths still ahead: the children of the node
are keyed by strings of the length of the first width and satisfy the invariant
for the remaining widths; when no width is left the node has no child. -/
def Shaped : List Int → Region → Prop
  | [], r => r.Sub = []
  | w :: ws, r => ∀ kc ∈ r.Sub, (kc.1.length : Int) = w ∧ Shaped ws kc.2

/-- Trees obtained from a fresh root with the given config and payload by a
sequence of calls of `Load` and `ReLoad` that return. -/
inductive Reachable (conf : Conf) (data : GoString) : Region → Prop where
  | fresh (sup : SupPtr) : Reachable conf data (NewRegion data (some conf) sup none)
  | load (rgn rgn1 : Region) (s : Scanner) (err : Option GoError) :
      Reachable conf data rgn → Load rgn s = Outcome.ret (rgn1, err) →
      Reachable conf data rgn1
  | reload (rgn rgn1 : Region) (s : Scanner) (err : Option GoError) :
      Reachable conf data rgn → ReLoad rgn s = Outcome.ret (rgn1, err) →
      Reachable conf data rgn1

/-- The record an iteration of `Load` stores for a line: none when the line is
skipped, otherwise the pieces of its code and its data. -/
def lineRecord (rgn : Region) (line : GoString) :
    Outcome (Option (List GoString × GoString)) :=
  match cutFirst TAB line with
  | none => Outcome.ret none
  | some (code, data) =>
    match dismantleCode rgn code with
    | Outcome.panic => Outcome.panic
    | Outcome.ret (_, some _) => Outcome.ret none
    | Outcome.ret (pieces, none) => Outcome.ret (some (pieces, data))

/-- The records of a list of lines, in order. -/
def lineRecords (rgn : Region) : List GoString → Outcome (List (List GoString × GoString))
  | [] => Outcome.ret []
  | line :: rest =>
    match lineRecord rgn line with
    | Outcome.panic => Outcome.panic
    | Outcome.ret o =>
      match lineRecords rgn rest with
      | Outcome.panic => Outcome.panic
      | Outcome.ret recs => Outcome.ret (o.toList ++ recs)

/-- The tree after storing the records one after the other. -/
def applyRecords : List (List GoString × GoString) → Region → Region
  | [], r => r
  | x :: xs, r => applyRecords xs (loadPieces x.2 x.1 r)

/-- The result of `Find` observed through the payload of the node it returns. -/
def findData (rgn : Region) (code : GoString) : Outcome (Option GoString × Option GoError) :=
  match Find rgn code with
  | Outcome.panic => Outcome.panic
  | Outcome.ret (n, err) => Outcome.ret (n.map Region.Data, err)

/-- A populated tree over the test config: the root, its child `"1"` and the
child `"01"` of that node. -/
def treeTwo : Region :=
  Region.mk rootRegionData (some rootRegionConf) SupPtr.nil
    [([49], Region.mk [65] none SupPtr.parent
      [([48, 49], Region.mk [66] none SupPtr.parent [])])]

/-! ## The reader and the scanner of the library -/

/-- Library `bufio.ErrTooLong`, "token too long". -/
def ErrTooLong : GoError := GoError.tooLong

/-- Library `bufio.MaxScanTokenSize = 64 * 1024`, the largest buffer of a scanner
made by `bufio.NewScanner`. -/
def MaxScanTokenSize : Nat := 65536

/-- The byte `'\n'`. -/
def LF : UInt8 := 10

/-- The byte `'\r'`. -/
def CR : UInt8 := 13

/-- An `io.Reader` as the scanner sees it: the bytes it delivers, each `Read`
filling the buffer it is given as far as bytes are left, and the error of the
`Read` after the last byte (`none` for `io.EOF`).  Files, `strings.Reader` and
`bytes.Buffer` read this way. -/
structure Reader where
  Content : GoString
  Fail : Option GoError

/-- Library `dropCR` of `bufio`: drops one trailing `'\r'`. -/
def dropCR (data : GoString) : GoString :=
  match data.getLast? with
  | some b => if b = CR then data.dropLast else data
  | none => data

/-- The tokens `Scan` yields with the split function `ScanLines` over the bytes
still to come, `cur` being the bytes buffered since the start of the current
line, and the error that stops the scan.  A line ends at `'\n'`; the bytes after
the last `'\n'`, when there are any, are a final line; once `MaxScanTokenSize`
bytes are buffered without a `'\n'` the buffer cannot grow and the scan stops
with `ErrTooLong`. -/
def scanLines : GoString → GoString → List GoString × Option GoError
  | [], cur => (if cur = [] then [] else [dropCR cur], none)
  | b :: rest, cur =>
    if b = LF then (dropCR cur :: (scanLines rest []).1, (scanLines rest []).2)
    else if MaxScanTokenSize ≤ cur.length + 1 then ([], some ErrTooLong)
    else scanLines rest (cur ++ [b])

/-- Library `bufio.NewScanner(r)` followed by the calls of `Scan` until it
returns false: the lines yielded and the value of `scanner.Err()`, which is the
scanner's own error if it has one and otherwise the reader's error, nil for
`io.EOF`. -/
def NewScanner (r : Reader) : Scanner :=
  match (scanLines r.Content []).2 with
  | some e => ⟨(scanLines r.Content []).1, some e⟩
  | none => ⟨(scanLines r.Content []).1, r.Fail⟩

/-- The stream holds a line of 64 KiB or more: `MaxScanTokenSize` consecutive
bytes without a `'\n'`. -/
def LongRun (s : GoString) : Prop :=
  ∃ a chunk b, s = a ++ chunk ++ b ∧ LF ∉ chunk ∧ MaxScanTokenSize ≤ chunk.length

/-- A stream of 65536 bytes `'a'` without line feed. -/
def longLine : GoString := List.replicate 65536 97

/-- A payload of 65536 bytes `'X'`, without line break. -/
def longData : GoString := List.replicate 65536 88

/-! ## Lemmas on machine integers, slices and the decomposition loop -/

theorem wrapInt_eq_self (x : Int) (h0 : 0 ≤ x) (h1 : x ≤ MaxInt) : wrapInt x = x := by
  unfold wrapInt
  unfold MaxInt at h1
  omega

theorem headSum_zero (conf : Conf) : headSum conf 0 = 0 := by
  simp [headSum]

theorem headSum_cons_succ (e : ConfEntry) (conf : Conf) (k : Nat) :
    headSum (e :: conf) (k + 1) = e.Width + headSum conf k := by
  simp [headSum]

theorem nonNeg_tail {e : ConfEntry} {conf : Conf} (h : NonNeg (e :: conf)) : NonNeg conf :=
  fun x hx => h x (List.mem_cons_of_mem _ hx)

theorem positive_nonNeg {conf : Conf} (h : Positive conf) : NonNeg conf :=
  fun x hx => le_of_lt (h x hx)

theorem positive_tail {e : ConfEntry} {conf : Conf} (h : Positive (e :: conf)) :
    Positive conf :=
  fun x hx => h x (List.mem_cons_of_mem _ hx)

theorem headSum_nonneg {conf : Conf} (h : NonNeg conf) (k : Nat) : 0 ≤ headSum conf k := by
  induction conf generalizing k with
  | nil => simp [headSum]
  | cons e rest ih =>
    cases k with
    | zero => simp [headSum]
    | succ k =>
      rw [headSum_cons_succ]
      have := ih (nonNeg_tail h) k
      have := h e (List.mem_cons_self _ _)
      omega

theorem sum_widths_nonneg {conf : Conf} (h : NonNeg conf) :
    0 ≤ (conf.map (fun e => e.Width)).sum := by
  induction conf with
  | nil => simp
  | cons e rest ih =>
    have := ih (nonNeg_tail h)
    have := h e (List.mem_cons_self _ _)
    simp only [List.map_cons, List.sum_cons]
    omega

theorem consumed_le_length (conf : Conf) (room : Int) : consumed conf room ≤ conf.length := by
  induction conf generalizing room with
  | nil => simp [consumed]
  | cons e rest ih =>
    simp only [consumed, List.length_cons]
    split
    · omega
    · have := ih (room - e.Width)
      omega

theorem headSum_consumed_le {conf : Conf} (h : NonNeg conf) (room : Int) (hr : 0 ≤ room) :
    headSum conf (consumed conf room) ≤ room := by
  induction conf generalizing room with
  | nil => simpa [consumed, headSum] using hr
  | cons e rest ih =>
    simp only [consumed]
    split
    · simpa [headSum] using hr
    · rw [headSum_cons_succ]
      have := ih (nonNeg_tail h) (room - e.Width) (by omega)
      omega

theorem slice_eq (code : GoString) (lo hi : Int) (h0 : 0 ≤ lo) (h1 : lo ≤ hi)
    (h2 : hi ≤ (code.length : Int)) :
    slice code lo hi = some ((code.drop lo.toNat).take (hi - lo).toNat) := by
  simp [slice, h0, h1, h2]

/-- Under non-negative widths whose sum stays in the `int` range the loop never
panics: it consumes `consumed rest (len - nw)` entries and appends the
corresponding consecutive substrings. -/
theorem dismantleLoop_eq (code : GoString) (rest : Conf) (nw : Int) (acc : List GoString)
    (hnn : NonNeg rest) (h0 : 0 ≤ nw) (h1 : nw ≤ (code.length : Int))
    (hfit : nw + (rest.map (fun e => e.Width)).sum ≤ MaxInt) :
    dismantleLoop code rest nw acc =
      Outcome.ret (nw + headSum rest (consumed rest ((code.length : Int) - nw)),
        acc ++ cutBy (((rest.take (consumed rest ((code.length : Int) - nw))).map
          (fun e => e.Width))) (code.drop nw.toNat)) := by
  induction rest generalizing nw acc with
  | nil => simp [dismantleLoop, consumed, headSum, cutBy]
  | cons e rest ih =>
    have he : 0 ≤ e.Width := hnn e (List.mem_cons_self _ _)
    have hs : 0 ≤ (rest.map (fun e => e.Width)).sum := sum_widths_nonneg (nonNeg_tail hnn)
    simp only [List.map_cons, List.sum_cons] at hfit
    have hw : wrapInt (nw + e.Width) = nw + e.Width :=
      wrapInt_eq_self _ (by omega) (by omega)
    simp only [dismantleLoop, hw, consumed]
    by_cases hgt : nw + e.Width > (code.length : Int)
    · have : e.Width > (code.length : Int) - nw := by omega
      simp [hgt, this, headSum, cutBy]
    · have hgt2 : ¬ e.Width > (code.length : Int) - nw := by omega
      rw [if_neg hgt, if_neg hgt2, slice_eq code nw (nw + e.Width) h0 (by omega) (by omega)]
      simp only []
      rw [ih (nw + e.Width) _ (nonNeg_tail hnn) (by omega) (by omega) (by omega)]
      rw [headSum_cons_succ]
      have e1 : (code.length : Int) - (nw + e.Width) = (code.length : Int) - nw - e.Width := by
        omega
      have e2 : (nw + e.Width).toNat = nw.toNat + e.Width.toNat := by omega
      have e3 : (nw + e.Width - nw).toNat = e.Width.toNat := by
        congr 1; omega
      rw [e1, e2, e3]
      simp [cutBy, List.drop_drop, add_assoc, add_comm]

theorem consumed_eq_of_headSum {conf : Conf} (hpos : Positive conf) (k : Nat)
    (hk : k ≤ conf.length) (room : Int) (hroom : room = headSum conf k) :
    consumed conf room = k := by
  induction conf generalizing k room with
  | nil =>
    simp only [List.length_nil, Nat.le_zero] at hk
    simp [consumed, hk]
  | cons e rest ih =>
    have he : 0 < e.Width := hpos e (List.mem_cons_self _ _)
    cases k with
    | zero =>
      rw [headSum_zero] at hroom
      simp only [consumed]
      rw [if_pos (by omega)]
    | succ k =>
      rw [headSum_cons_succ] at hroom
      have hn := headSum_nonneg (positive_nonNeg (positive_tail hpos)) k
      simp only [consumed]
      rw [if_neg (by omega)]
      simp only [List.length_cons, Nat.add_le_add_iff_right] at hk
      rw [ih (positive_tail hpos) k hk (room - e.Width) (by omega)]

theorem cutBy_length (ws : List Int) (s : GoString) : (cutBy ws s).length = ws.length := by
  induction ws generalizing s with
  | nil => simp [cutBy]
  | cons w ws ih => simp [cutBy, ih]

theorem cutBy_map_length (ws : List Int) (s : GoString) (hnn : ∀ w ∈ ws, 0 ≤ w)
    (hsum : ws.sum ≤ (s.length : Int)) :
    (cutBy ws s).map (fun p => (p.length : Int)) = ws := by
  induction ws generalizing s with
  | nil => simp [cutBy]
  | cons w ws ih =>
    have hw : 0 ≤ w := hnn w (List.mem_cons_self _ _)
    have hs : 0 ≤ ws.sum := List.sum_nonneg (fun x hx => hnn x (List.mem_cons_of_mem _ hx))
    simp only [List.sum_cons] at hsum
    simp only [cutBy, List.map_cons, List.length_take]
    rw [ih (s.drop w.toNat) (fun x hx => hnn x (List.mem_cons_of_mem _ hx))
      (by simp only [List.length_drop]; omega)]
    congr 1
    omega

theorem cutBy_join (ws : List Int) (s : GoString) (hnn : ∀ w ∈ ws, 0 ≤ w)
    (hsum : ws.sum = (s.length : Int)) : (cutBy ws s).flatten = s := by
  induction ws generalizing s with
  | nil =>
    simp only [List.sum_nil] at hsum
    have : s = [] := List.length_eq_zero.mp (by omega)
    simp [cutBy, this]
  | cons w ws ih =>
    have hw : 0 ≤ w := hnn w (List.mem_cons_self _ _)
    have hs : 0 ≤ ws.sum := List.sum_nonneg (fun x hx => hnn x (List.mem_cons_of_mem _ hx))
    simp only [List.sum_cons] at hsum
    simp only [cutBy, List.flatten_cons]
    rw [ih (s.drop w.toNat) (fun x hx => hnn x (List.mem_cons_of_mem _ hx))
      (by simp only [List.length_drop]; omega)]
    exact List.take_append_drop _ _

/-- With a config that is present, has non-negative widths and a representable
sum, `dismantleCode` returns, and its result is determined by the number of
entries consumed. -/
theorem dismantleCode_eq (rgn : Region) (conf : Conf) (code : GoString)
    (hc : rgn.Conf = some conf) (hnn : NonNeg conf) (hfit : Fits conf) :
    dismantleCode rgn code =
      if (code.length : Int) = 0 ∨
          (code.length : Int) ≠ headSum conf (consumed conf (code.length : Int)) then
        Outcome.ret ([], some ErrorRegionCodeIncorrect)
      else
        Outcome.ret (cutBy ((conf.take (consumed conf (code.length : Int))).map
          (fun e => e.Width)) code, none) := by
  unfold dismantleCode
  rw [hc]
  simp only []
  rw [dismantleLoop_eq code conf 0 [] hnn (le_refl 0) (by omega)
    (by unfold Fits at hfit; omega)]
  simp

/-- A code whose length is the sum of the first `k ≥ 1` widths decomposes into
the consecutive substrings of those widths. -/
theorem dismantleCode_ok (rgn : Region) (conf : Conf) (code : GoString) (k : Nat)
    (hc : rgn.Conf = some conf) (hpos : Positive conf) (hfit : Fits conf)
    (hk1 : 1 ≤ k) (hk2 : k ≤ conf.length) (hlen : (code.length : Int) = headSum conf k) :
    dismantleCode rgn code =
      Outcome.ret (cutBy ((conf.take k).map (fun e => e.Width)) code, none) := by
  rw [dismantleCode_eq rgn conf code hc (positive_nonNeg hpos) hfit,
    consumed_eq_of_headSum hpos k hk2 _ hlen]
  have hne : (code.length : Int) ≠ 0 := by
    obtain ⟨j, rfl⟩ : ∃ j, k = j + 1 := ⟨k - 1, by omega⟩
    cases conf with
    | nil => simp at hk2
    | cons e rest =>
      rw [headSum_cons_succ] at hlen
      have := hpos e (List.mem_cons_self _ _)
      have := headSum_nonneg (positive_nonNeg (positive_tail hpos)) j
      omega
  rw [if_neg]
  intro h
  rcases h with h | h
  · exact hne h
  · exact h hlen

/-- C1, counterexample: with widths `[1, 2^63 - 1]`, both positive, the code
`"1"` has the length of the first width (`k = 1`), yet `dismantleCode` does not
succeed: the sum `1 + (2^63 - 1)` wraps to a negative `tnw`, the guard
`tnw > cl` does not fire and the slice `code[1:tnw]` panics. -/
theorem C1_counterexample :
    Positive overflowConf ∧ 1 ≤ 1 ∧ 1 ≤ overflowConf.length ∧
      (([49] : GoString).length : Int) = headSum overflowConf 1 ∧
      dismantleCode (NewRegion [] (some overflowConf) SupPtr.nil none) [49] =
        Outcome.panic := by
  decide

/-- C1 (amended): for every config that is present at the root, whose widths are
all positive and whose total width is representable as an `int`, every `k` in
`1..n` and every code whose length equals `w1 + ... + wk`, `dismantleCode`
returns without error exactly `k` pieces whose lengths are `w1, ..., wk` in that
order. -/
theorem C1_dismantleCode_pieces (rgn : Region) (conf : Conf) (code : GoString) (k : Nat)
    (hc : rgn.Conf = some conf) (hpos : Positive conf) (hfit : Fits conf)
    (hk1 : 1 ≤ k) (hk2 : k ≤ conf.length) (hlen : (code.length : Int) = headSum conf k) :
    ∃ pieces, dismantleCode rgn code = Outcome.ret (pieces, none) ∧
      pieces.length = k ∧
      pieces.map (fun p => (p.length : Int)) = (conf.take k).map (fun e => e.Width) := by
  refine ⟨_, dismantleCode_ok rgn conf code k hc hpos hfit hk1 hk2 hlen, ?_, ?_⟩
  · rw [cutBy_length]
    simp [hk2]
  · apply cutBy_map_length
    · intro w hw
      obtain ⟨e, he, rfl⟩ := List.mem_map.mp hw
      exact le_of_lt (hpos e (List.mem_of_mem_take he))
    · rw [hlen]
      exact le_of_eq rfl

/-- C1, witness: the test config `[1,2,2,2,2]` with the code `"101"` and `k = 2`. -/
theorem C1_dismantleCode_pieces_witness :
    ∃ pieces, dismantleCode newRegion [49, 48, 49] = Outcome.ret (pieces, none) ∧
      pieces.length = 2 ∧
      pieces.map (fun p => (p.length : Int)) =
        (rootRegionConf.take 2).map (fun e => e.Width) :=
  C1_dismantleCode_pieces newRegion rootRegionConf [49, 48, 49] 2 rfl (by decide) (by decide)
    (by decide) (by decide) (by decide)

/-- With non-negative widths and a representable sum, `dismantleCode` either
fails with `ErrorRegionCodeIncorrect` and no pieces, or returns pieces whose
concatenation is the code, the code being boundary-valid. -/
theorem dismantleCode_cases (rgn : Region) (conf : Conf) (code : GoString)
    (hc : rgn.Conf = some conf) (hnn : NonNeg conf) (hfit : Fits conf) :
    dismantleCode rgn code = Outcome.ret ([], some ErrorRegionCodeIncorrect) ∨
      (∃ pieces, dismantleCode rgn code = Outcome.ret (pieces, none) ∧
        pieces.flatten = code ∧ code ≠ [] ∧ BoundaryValid conf code) := by
  rw [dismantleCode_eq rgn conf code hc hnn hfit]
  by_cases h : (code.length : Int) = 0 ∨
      (code.length : Int) ≠ headSum conf (consumed conf (code.length : Int))
  · left
    rw [if_pos h]
  · right
    rw [if_neg h]
    simp only [not_or, not_not, ne_eq] at h
    obtain ⟨h0, h1⟩ := h
    refine ⟨_, rfl, ?_, ?_, ?_⟩
    · apply cutBy_join
      · intro w hw
        obtain ⟨e, he, rfl⟩ := List.mem_map.mp hw
        exact hnn e (List.mem_of_mem_take he)
      · exact h1.symm
    · intro hnil
      apply h0
      simp [hnil]
    · refine ⟨consumed conf (code.length : Int), ?_, consumed_le_length _ _, h1⟩
      by_contra hk
      have hz : consumed conf (code.length : Int) = 0 := by omega
      rw [hz, headSum_zero] at h1
      exact h0 h1

/-- C2, counterexample: the code `"10"` has a length that is no sum of leading
widths, neither for the widths `[-1]` nor for the positive widths
`[1, 2^63 - 1]`; in both cases `dismantleCode` does not fail with
`ErrorRegionCodeIncorrect` but panics on an out-of-range slice (`code[0:-1]`,
and `code[1:tnw]` with a wrapped, negative `tnw`). -/
theorem C2_counterexample :
    (¬ BoundaryValid negativeConf [49, 48] ∧
      dismantleCode (NewRegion [] (some negativeConf) SupPtr.nil none) [49, 48] =
        Outcome.panic) ∧
    (¬ BoundaryValid overflowConf [49, 48] ∧
      dismantleCode (NewRegion [] (some overflowConf) SupPtr.nil none) [49, 48] =
        Outcome.panic) := by
  decide

/-- C2 (amended): for every config that is present at the root, whose widths are
all non-negative and whose total width is representable as an `int`, and every
code that is empty or whose length is not the sum of the widths of a non-empty
initial run of the entries, `dismantleCode` returns `ErrorRegionCodeIncorrect`
together with no pieces. -/
theorem C2_dismantleCode_incorrect (rgn : Region) (conf : Conf) (code : GoString)
    (hc : rgn.Conf = some conf) (hnn : NonNeg conf) (hfit : Fits conf)
    (h : code = [] ∨ ¬ BoundaryValid conf code) :
    dismantleCode rgn code = Outcome.ret ([], some ErrorRegionCodeIncorrect) := by
  rcases dismantleCode_cases rgn conf code hc hnn hfit with h1 | ⟨_, _, _, hne, hbv⟩
  · exact h1
  · rcases h with h | h
    · exact absurd h hne
    · exact absurd hbv h

/-- C2, witness: the test config `[1,2,2,2,2]` with the code `"10102011"`, which
ends in the middle of a segment. -/
theorem C2_dismantleCode_incorrect_witness :
    dismantleCode newRegion [49, 48, 49, 48, 50, 48, 49, 49] =
      Outcome.ret ([], some ErrorRegionCodeIncorrect) :=
  C2_dismantleCode_incorrect newRegion rootRegionConf [49, 48, 49, 48, 50, 48, 49, 49] rfl
    (by decide) (by decide) (Or.inr (by decide))

/-! ## Lemmas on the tree -/

theorem mapGet_mapSet_self (m : List (GoString × Region)) (p : GoString) (v : Region) :
    mapGet (mapSet m p v) p = some v := by
  induction m with
  | nil => simp [mapSet, mapGet]
  | cons kv rest ih =>
    obtain ⟨k, w⟩ := kv
    by_cases h : k = p
    · simp [mapSet, mapGet, h]
    · simp [mapSet, mapGet, h, ih]

theorem mapGet_mapSet_ne (m : List (GoString × Region)) (p q : GoString) (v : Region)
    (h : q ≠ p) : mapGet (mapSet m p v) q = mapGet m q := by
  induction m with
  | nil => simp [mapSet, mapGet, Ne.symm h]
  | cons kv rest ih =>
    obtain ⟨k, w⟩ := kv
    by_cases hk : k = p
    · subst hk
      simp [mapSet, mapGet, Ne.symm h]
    · by_cases hq : k = q
      · subst hq
        simp [mapSet, mapGet, hk]
      · simp [mapSet, mapGet, hk, hq, ih]

@[simp] theorem regionSub_mk (d : GoString) (c : Option Conf) (s : SupPtr)
    (m : List (GoString × Region)) : (Region.mk d c s m).Sub = m := rfl

@[simp] theorem regionData_mk (d : GoString) (c : Option Conf) (s : SupPtr)
    (m : List (GoString × Region)) : (Region.mk d c s m).Data = d := rfl

@[simp] theorem regionConf_mk (d : GoString) (c : Option Conf) (s : SupPtr)
    (m : List (GoString × Region)) : (Region.mk d c s m).Conf = c := rfl

@[simp] theorem regionSup_mk (d : GoString) (c : Option Conf) (s : SupPtr)
    (m : List (GoString × Region)) : (Region.mk d c s m).Sup = s := rfl

theorem loadPieces_nil (d : GoString) (r : Region) :
    loadPieces d [] r = Region.mk d r.Conf r.Sup r.Sub := by
  cases r with
  | mk d0 c s m =>
    by_cases h : d0 = d
    · simp [loadPieces, Region.Data, Region.Conf, Region.Sup, Region.Sub, h]
    · simp [loadPieces, Region.Data, Region.Conf, Region.Sup, Region.Sub, h]

theorem loadPieces_cons (d p : GoString) (ps : List GoString) (r : Region) :
    loadPieces d (p :: ps) r =
      Region.mk r.Data r.Conf r.Sup (mapSet r.Sub p (loadPieces d ps (childOr d r.Sub p))) := by
  simp only [loadPieces, childOr]
  cases mapGet r.Sub p <;> rfl

theorem loadPieces_Conf (d : GoString) (ps : List GoString) (r : Region) :
    (loadPieces d ps r).Conf = r.Conf := by
  cases ps with
  | nil => rw [loadPieces_nil]; rfl
  | cons p ps => rw [loadPieces_cons]; rfl

theorem findLoop_cons (p : GoString) (ps : List GoString) (r : Region) :
    findLoop (p :: ps) r =
      match mapGet r.Sub p with
      | none => (none, some ErrorRegionNotFound)
      | some subRgn => findLoop ps subRgn := by
  simp only [findLoop]

theorem hasData_loadPieces_self (d : GoString) (ps : List GoString) (r : Region) :
    HasData (loadPieces d ps r) ps d := by
  induction ps generalizing r with
  | nil =>
    rw [loadPieces_nil]
    exact ⟨_, rfl, rfl⟩
  | cons p ps ih =>
    rw [loadPieces_cons]
    unfold HasData
    rw [findLoop_cons]
    simp only [regionSub_mk, mapGet_mapSet_self]
    exact ih _

theorem hasData_loadPieces_other (d : GoString) (ps qs : List GoString) (r : Region)
    (d0 : GoString) (hne : qs ≠ ps) (h : HasData r qs d0) :
    HasData (loadPieces d ps r) qs d0 := by
  induction ps generalizing qs r with
  | nil =>
    cases qs with
    | nil => exact absurd rfl hne
    | cons q qs =>
      rw [loadPieces_nil]
      unfold HasData at h ⊢
      rw [findLoop_cons] at h ⊢
      exact h
  | cons p ps ih =>
    rw [loadPieces_cons]
    cases qs with
    | nil =>
      obtain ⟨n, hn, hd⟩ := h
      simp only [findLoop, Prod.mk.injEq, Option.some.injEq, and_true] at hn
      subst hn
      exact ⟨_, rfl, hd⟩
    | cons q qs =>
      unfold HasData at h ⊢
      rw [findLoop_cons] at h ⊢
      simp only [regionSub_mk]
      by_cases hq : q = p
      · subst hq
        rw [mapGet_mapSet_self]
        simp only []
        cases hm : mapGet r.Sub q with
        | none =>
          rw [hm] at h
          obtain ⟨n, hn, _⟩ := h
          simp at hn
        | some sub =>
          rw [hm] at h
          simp only [] at h
          have hqs : qs ≠ ps := fun e => hne (by rw [e])
          have := ih qs sub hqs h
          simpa [childOr, hm] using this
      · rw [mapGet_mapSet_ne _ _ _ _ hq]
        exact h

theorem SplitN_two (line : GoString) :
    SplitN line TAB regionFieldCount =
      match cutFirst TAB line with
      | none => [line]
      | some (a, d) => [a, d] := by
  simp only [regionFieldCount, SplitN]

/-- One iteration of `Load` in terms of the cut at the first tab. -/
theorem loadLine_eq (rgn : Region) (line : GoString) :
    loadLine rgn line =
      match cutFirst TAB line with
      | none => Outcome.ret rgn
      | some (code, data) =>
        match dismantleCode rgn code with
        | Outcome.panic => Outcome.panic
        | Outcome.ret (_, some _) => Outcome.ret rgn
        | Outcome.ret (pieces, none) => Outcome.ret (loadPieces data pieces rgn) := by
  unfold loadLine
  simp only [SplitN_two]
  cases cutFirst TAB line with
  | none => simp [regionFieldCount]
  | some ad =>
    obtain ⟨a, d⟩ := ad
    simp [regionFieldCount]

/-- With a usable config one iteration of `Load` returns, keeps the config, and
either leaves the tree as it is or stores the record along the pieces of its
code. -/
theorem loadLine_cases (rgn : Region) (conf : Conf) (line : GoString)
    (hc : rgn.Conf = some conf) (hnn : NonNeg conf) (hfit : Fits conf) :
    ∃ rgn1, loadLine rgn line = Outcome.ret rgn1 ∧ rgn1.Conf = some conf ∧
      (rgn1 = rgn ∧ (∀ code data, cutFirst TAB line = some (code, data) →
          dismantleCode rgn code = Outcome.ret ([], some ErrorRegionCodeIncorrect)) ∨
        ∃ code data pieces, cutFirst TAB line = some (code, data) ∧
          dismantleCode rgn code = Outcome.ret (pieces, none) ∧
          pieces.flatten = code ∧ rgn1 = loadPieces data pieces rgn) := by
  rw [loadLine_eq]
  cases hcut : cutFirst TAB line with
  | none => exact ⟨rgn, rfl, hc, Or.inl ⟨rfl, by simp⟩⟩
  | some ad =>
    obtain ⟨code, data⟩ := ad
    rcases dismantleCode_cases rgn conf code hc hnn hfit with h | ⟨pieces, h, hj, _, _⟩
    · simp only [h]
      refine ⟨rgn, rfl, hc, Or.inl ⟨rfl, ?_⟩⟩
      intro c1 d1 he
      simp only [Option.some.injEq, Prod.mk.injEq] at he
      rw [← he.1]
      exact h
    · simp only [h]
      exact ⟨_, rfl, by rw [loadPieces_Conf, hc], Or.inr ⟨code, data, pieces, rfl, h, hj, rfl⟩⟩

theorem loadLines_cons (rgn : Region) (line : GoString) (rest : List GoString) :
    loadLines rgn (line :: rest) =
      match loadLine rgn line with
      | Outcome.panic => Outcome.panic
      | Outcome.ret rgn1 => loadLines rgn1 rest := by
  simp only [loadLines]

/-- With a usable config the whole loop of `Load` returns and keeps the config. -/
theorem loadLines_ret (rgn : Region) (conf : Conf) (lines : List GoString)
    (hc : rgn.Conf = some conf) (hnn : NonNeg conf) (hfit : Fits conf) :
    ∃ rgn1, loadLines rgn lines = Outcome.ret rgn1 ∧ rgn1.Conf = some conf := by
  induction lines generalizing rgn with
  | nil => exact ⟨rgn, rfl, hc⟩
  | cons line rest ih =>
    obtain ⟨r1, h1, hc1, _⟩ := loadLine_cases rgn conf line hc hnn hfit
    rw [loadLines_cons, h1]
    exact ih r1 hc1

/-- The result of `dismantleCode` depends on the root through its config only. -/
theorem dismantleCode_congr (r1 r2 : Region) (code : GoString) (h : r1.Conf = r2.Conf) :
    dismantleCode r1 code = dismantleCode r2 code := by
  unfold dismantleCode
  rw [h]

theorem loadLines_append (rgn : Region) (l1 l2 : List GoString) :
    loadLines rgn (l1 ++ l2) =
      match loadLines rgn l1 with
      | Outcome.panic => Outcome.panic
      | Outcome.ret rgn1 => loadLines rgn1 l2 := by
  induction l1 generalizing rgn with
  | nil => simp [loadLines]
  | cons line rest ih =>
    simp only [List.cons_append, loadLines_cons]
    cases loadLine rgn line with
    | panic => rfl
    | ret r1 => exact ih r1

/-- Lines whose code differs from `c` leave the node of `c` in place with its
payload. -/
theorem hasData_loadLines_other (conf : Conf) (hnn : NonNeg conf) (hfit : Fits conf)
    (c d : GoString) (ps : List GoString) (hps : ps.flatten = c)
    (lines : List GoString) (rgn : Region) (hc : rgn.Conf = some conf)
    (hno : ∀ l ∈ lines, ∀ d1, cutFirst TAB l ≠ some (c, d1))
    (h : HasData rgn ps d) :
    ∃ rgn1, loadLines rgn lines = Outcome.ret rgn1 ∧ rgn1.Conf = some conf ∧
      HasData rgn1 ps d := by
  induction lines generalizing rgn with
  | nil => exact ⟨rgn, rfl, hc, h⟩
  | cons line rest ih =>
    obtain ⟨r1, h1, hc1, hcase⟩ := loadLine_cases rgn conf line hc hnn hfit
    rw [loadLines_cons, h1]
    have hno1 : ∀ l ∈ rest, ∀ d1, cutFirst TAB l ≠ some (c, d1) :=
      fun l hl => hno l (List.mem_cons_of_mem _ hl)
    apply ih r1 hc1 hno1
    rcases hcase with ⟨he, _⟩ | ⟨code, data, pieces, hcut, _, hj, he⟩
    · rw [he]; exact h
    · rw [he]
      apply hasData_loadPieces_other _ _ _ _ _ _ h
      intro hpp
      apply hno line (List.mem_cons_self _ _) data
      rw [hcut, ← hps, hpp, hj]

/-- When the code decomposes, `Find` is the walk along its pieces. -/
theorem Find_eq_findLoop (rgn : Region) (code : GoString) (pieces : List GoString)
    (h : dismantleCode rgn code = Outcome.ret (pieces, none)) :
    Find rgn code = Outcome.ret (findLoop pieces rgn) := by
  unfold Find
  rw [h]

/-- After `Load` of a list of lines, `Find` on a boundary-valid code returns the
node carrying the data of the last line whose part before the first tab is that
code. -/
theorem find_after_load (rgn : Region) (conf : Conf) (before after : List GoString)
    (line c d : GoString)
    (hc : rgn.Conf = some conf) (hpos : Positive conf) (hfit : Fits conf)
    (hbv : BoundaryValid conf c)
    (hline : cutFirst TAB line = some (c, d))
    (hlast : ∀ l ∈ after, ∀ d1, cutFirst TAB l ≠ some (c, d1)) :
    ∃ rgn1 node, Load rgn ⟨before ++ line :: after, none⟩ = Outcome.ret (rgn1, none) ∧
      Find rgn1 c = Outcome.ret (some node, none) ∧ node.Data = d := by
  obtain ⟨k, hk1, hk2, hlen⟩ := hbv
  have hnn := (positive_nonNeg hpos)
  obtain ⟨r1, h1, hc1⟩ := loadLines_ret rgn conf before hc hnn hfit
  have hd1 := dismantleCode_ok r1 conf c k hc1 hpos hfit hk1 hk2 hlen
  have hj : (cutBy ((conf.take k).map (fun e => e.Width)) c).flatten = c := by
    apply cutBy_join
    · intro w hw
      obtain ⟨e, he, rfl⟩ := List.mem_map.mp hw
      exact hnn e (List.mem_of_mem_take he)
    · exact hlen.symm
  have h2 : loadLine r1 line =
      Outcome.ret (loadPieces d (cutBy ((conf.take k).map (fun e => e.Width)) c) r1) := by
    rw [loadLine_eq, hline]
    simp only [hd1]
  obtain ⟨r3, h3, hc3, n, hn, hdata⟩ :=
    hasData_loadLines_other conf hnn hfit c d _ hj after _
      (by rw [loadPieces_Conf, hc1]) hlast (hasData_loadPieces_self d _ r1)
  refine ⟨r3, n, ?_, ?_, hdata⟩
  · simp only [Load, loadLines_append, h1, loadLines_cons, h2, h3]
  · rw [Find_eq_findLoop r3 c _ (dismantleCode_ok r3 conf c k hc3 hpos hfit hk1 hk2 hlen)]
    rw [hn]

/-- C3, counterexample: with the positive widths `[1, 2^63 - 1]` and a fresh
root, the list holding the single line `"1<TAB>X"` has a well-formed line of
code `"1"`, yet `Load` panics while decomposing that code (the second sum wraps),
so no `Find` follows. -/
theorem C3_counterexample :
    Positive overflowConf ∧ BoundaryValid overflowConf [49] ∧
      cutFirst TAB [49, 9, 88] = some ([49], [88]) ∧
      Load (NewRegion [] (some overflowConf) SupPtr.nil none) ⟨[[49, 9, 88]], none⟩ =
        Outcome.panic :=
  ⟨by decide, by decide, by decide, rfl⟩

/-- C3 (amended): for every tree, fresh or populated, whose root config has
positive widths and a total width representable as an `int`, every successfully
read list of lines and every boundary-valid code `c`: if `line` is the last line
of the list whose part before the first tab is `c`, with `d` after that tab, then
`Load` returns nil and afterwards `Find(c)` succeeds with a node whose `Data` is
`d`. -/
theorem C3_find_last_loaded (rgn : Region) (conf : Conf) (before after : List GoString)
    (line c d : GoString)
    (hc : rgn.Conf = some conf) (hpos : Positive conf) (hfit : Fits conf)
    (hbv : BoundaryValid conf c)
    (hline : cutFirst TAB line = some (c, d))
    (hlast : ∀ l ∈ after, ∀ d1, cutFirst TAB l ≠ some (c, d1)) :
    ∃ rgn1 node, Load rgn ⟨before ++ line :: after, none⟩ = Outcome.ret (rgn1, none) ∧
      Find rgn1 c = Outcome.ret (some node, none) ∧ node.Data = d :=
  find_after_load rgn conf before after line c d hc hpos hfit hbv hline hlast

/-- C3, witness: the test root with the lines `"1<TAB>A"`, `"101<TAB>B"`,
`"1<TAB>C"`; the code `"1"` is loaded twice and the second payload `"C"` wins. -/
theorem C3_find_last_loaded_witness :
    ∃ rgn1 node, Load newRegion ⟨[[49, 9, 65], [49, 48, 49, 9, 66]] ++ [49, 9, 67] :: [], none⟩ =
        Outcome.ret (rgn1, none) ∧
      Find rgn1 [49] = Outcome.ret (some node, none) ∧ node.Data = [67] :=
  C3_find_last_loaded newRegion rootRegionConf [[49, 9, 65], [49, 48, 49, 9, 66]] []
    [49, 9, 67] [49] [67] rfl (by decide) (by decide) (by decide) (by decide)
    (by intro l hl; cases hl)

/-! ## Classification of the results of Find -/

theorem findLoop_of_nodeAt (ps : List GoString) (r n : Region) (h : nodeAt r ps = some n) :
    findLoop ps r = (some n, none) := by
  induction ps generalizing r with
  | nil =>
    simp only [nodeAt, Option.some.injEq] at h
    simp [findLoop, h]
  | cons p ps ih =>
    simp only [nodeAt] at h
    rw [findLoop_cons]
    cases hm : mapGet r.Sub p with
    | none => rw [hm] at h; simp at h
    | some sub =>
      rw [hm] at h
      exact ih sub h

theorem findLoop_of_missing (ps : List GoString) (r : Region) (h : MissingChild r ps) :
    findLoop ps r = (none, some ErrorRegionNotFound) := by
  induction ps generalizing r with
  | nil =>
    obtain ⟨pre, p, post, n, he, _, _⟩ := h
    simp at he
  | cons q qs ih =>
    obtain ⟨pre, p, post, n, he, hn, hm⟩ := h
    rw [findLoop_cons]
    cases pre with
    | nil =>
      simp only [List.nil_append, List.cons.injEq] at he
      simp only [nodeAt, Option.some.injEq] at hn
      rw [he.1, hn, hm]
    | cons a pre =>
      simp only [List.cons_append, List.cons.injEq] at he
      simp only [nodeAt] at hn
      rw [he.1]
      cases hs : mapGet r.Sub a with
      | none => rfl
      | some sub =>
        rw [hs] at hn
        exact ih sub ⟨pre, p, post, n, he.2, hn, hm⟩

/-- Every walk either ends at a node or stops at a missing child. -/
theorem nodeAt_or_missing (ps : List GoString) (r : Region) :
    (∃ n, nodeAt r ps = some n) ∨ MissingChild r ps := by
  induction ps generalizing r with
  | nil => exact Or.inl ⟨r, rfl⟩
  | cons q qs ih =>
    cases hs : mapGet r.Sub q with
    | none => exact Or.inr ⟨[], q, qs, r, rfl, rfl, hs⟩
    | some sub =>
      rcases ih sub with ⟨n, hn⟩ | ⟨pre, p, post, n, he, hn, hm⟩
      · exact Or.inl ⟨n, by simp only [nodeAt, hs, hn]⟩
      · refine Or.inr ⟨q :: pre, p, post, n, by rw [he]; rfl, ?_, hm⟩
        simp only [nodeAt, hs, hn]

/-- C4, counterexample: three roots on which the classification fails.  With the
width `[0]` the empty code has the length of the first width, yet `Find` returns
`ErrorRegionCodeIncorrect` (the guard `cl == 0`).  With the width `[-1]` and with
the positive widths `[1, 2^63 - 1]` the code `"10"`, whose length is no sum of
leading widths, makes `Find` panic instead of returning
`ErrorRegionCodeIncorrect`. -/
theorem C4_counterexample :
    (BoundaryValid zeroConf [] ∧
      Find (NewRegion [] (some zeroConf) SupPtr.nil none) [] =
        Outcome.ret (none, some ErrorRegionCodeIncorrect)) ∧
    (¬ BoundaryValid negativeConf [49, 48] ∧
      Find (NewRegion [] (some negativeConf) SupPtr.nil none) [49, 48] = Outcome.panic) ∧
    (Positive overflowConf ∧ ¬ BoundaryValid overflowConf [49, 48] ∧
      Find (NewRegion [] (some overflowConf) SupPtr.nil none) [49, 48] = Outcome.panic) :=
  ⟨⟨by decide, rfl⟩, ⟨by decide, rfl⟩, ⟨by decide, by decide, rfl⟩⟩

/-- C4 (amended): for every tree whose root config is present, has positive
widths and a total width representable as an `int`, and for every code, `Find`
returns `ErrorRegionCodeIncorrect` with a nil node exactly when the length of the
code is not the sum of the widths of a non-empty initial run of the entries,
whatever the tree contains; it returns `ErrorRegionNotFound` with a nil node
exactly when the code is boundary-valid and at some level of its path the node
reached has no child keyed by the next piece; otherwise it returns the node at
the end of the path with a nil error. -/
theorem C4_find_classification (rgn : Region) (conf : Conf) (code : GoString)
    (hc : rgn.Conf = some conf) (hpos : Positive conf) (hfit : Fits conf) :
    (Find rgn code = Outcome.ret (none, some ErrorRegionCodeIncorrect) ↔
      ¬ BoundaryValid conf code) ∧
    (Find rgn code = Outcome.ret (none, some ErrorRegionNotFound) ↔
      ∃ k, 1 ≤ k ∧ k ≤ conf.length ∧ (code.length : Int) = headSum conf k ∧
        MissingChild rgn (cutBy ((conf.take k).map (fun e => e.Width)) code)) ∧
    (∀ k, 1 ≤ k → k ≤ conf.length → (code.length : Int) = headSum conf k →
      ¬ MissingChild rgn (cutBy ((conf.take k).map (fun e => e.Width)) code) →
      ∃ node, nodeAt rgn (cutBy ((conf.take k).map (fun e => e.Width)) code) = some node ∧
        Find rgn code = Outcome.ret (some node, none)) := by
  have hok : ∀ k, 1 ≤ k → k ≤ conf.length → (code.length : Int) = headSum conf k →
      Find rgn code =
        Outcome.ret (findLoop (cutBy ((conf.take k).map (fun e => e.Width)) code) rgn) :=
    fun k h1 h2 h3 =>
      Find_eq_findLoop rgn code _ (dismantleCode_ok rgn conf code k hc hpos hfit h1 h2 h3)
  have hbad : ¬ BoundaryValid conf code →
      Find rgn code = Outcome.ret (none, some ErrorRegionCodeIncorrect) := by
    intro h
    unfold Find
    rcases dismantleCode_cases rgn conf code hc (positive_nonNeg hpos) hfit with h1 | ⟨_, _, _, _, hbv⟩
    · rw [h1]
    · exact absurd hbv h
  refine ⟨⟨?_, hbad⟩, ⟨?_, ?_⟩, ?_⟩
  · intro hf hbv
    obtain ⟨k, h1, h2, h3⟩ := hbv
    rw [hok k h1 h2 h3] at hf
    rcases nodeAt_or_missing (cutBy ((conf.take k).map (fun e => e.Width)) code) rgn with
      ⟨n, hn⟩ | hm
    · rw [findLoop_of_nodeAt _ _ _ hn] at hf
      simp at hf
    · rw [findLoop_of_missing _ _ hm] at hf
      simp [ErrorRegionNotFound, ErrorRegionCodeIncorrect] at hf
  · intro hf
    by_cases hbv : BoundaryValid conf code
    · obtain ⟨k, h1, h2, h3⟩ := hbv
      refine ⟨k, h1, h2, h3, ?_⟩
      rcases nodeAt_or_missing (cutBy ((conf.take k).map (fun e => e.Width)) code) rgn with
        ⟨n, hn⟩ | hm
      · rw [hok k h1 h2 h3, findLoop_of_nodeAt _ _ _ hn] at hf
        simp at hf
      · exact hm
    · rw [hbad hbv] at hf
      simp [ErrorRegionNotFound, ErrorRegionCodeIncorrect] at hf
  · rintro ⟨k, h1, h2, h3, hm⟩
    rw [hok k h1 h2 h3, findLoop_of_missing _ _ hm]
  · intro k h1 h2 h3 hm
    rcases nodeAt_or_missing (cutBy ((conf.take k).map (fun e => e.Width)) code) rgn with
      ⟨n, hn⟩ | hm1
    · exact ⟨n, hn, by rw [hok k h1 h2 h3, findLoop_of_nodeAt _ _ _ hn]⟩
    · exact absurd hm1 hm

/-- C4, witness: the populated tree `treeOne` and the code `"101"`, whose first
piece exists in the tree and whose second does not. -/
theorem C4_find_classification_witness :
    (Find treeOne [49, 48, 49] = Outcome.ret (none, some ErrorRegionCodeIncorrect) ↔
      ¬ BoundaryValid rootRegionConf [49, 48, 49]) ∧
    (Find treeOne [49, 48, 49] = Outcome.ret (none, some ErrorRegionNotFound) ↔
      ∃ k, 1 ≤ k ∧ k ≤ rootRegionConf.length ∧
        (([49, 48, 49] : GoString).length : Int) = headSum rootRegionConf k ∧
        MissingChild treeOne
          (cutBy ((rootRegionConf.take k).map (fun e => e.Width)) [49, 48, 49])) ∧
    (∀ k, 1 ≤ k → k ≤ rootRegionConf.length →
      (([49, 48, 49] : GoString).length : Int) = headSum rootRegionConf k →
      ¬ MissingChild treeOne
          (cutBy ((rootRegionConf.take k).map (fun e => e.Width)) [49, 48, 49]) →
      ∃ node,
        nodeAt treeOne
          (cutBy ((rootRegionConf.take k).map (fun e => e.Width)) [49, 48, 49]) = some node ∧
        Find treeOne [49, 48, 49] = Outcome.ret (some node, none)) :=
  C4_find_classification treeOne rootRegionConf [49, 48, 49] rfl (by decide) (by decide)

/-! ## Load, ReLoad and the stream -/

/-- C5, counterexample: a live root whose config has the width `[-1]`, and one
with the positive widths `[1, 2^63 - 1]`, with a stream that yields the line
`"1<TAB>X"` and then fails: `ReLoad` does not return the failure, it panics
while the private `Load` decomposes the code. -/
theorem C5_counterexample :
    ReLoad (NewRegion [] (some negativeConf) SupPtr.nil none)
        ⟨[[49, 9, 88]], some (GoError.stream 0)⟩ = Outcome.panic ∧
    ReLoad (NewRegion [] (some overflowConf) SupPtr.nil none)
        ⟨[[49, 9, 88]], some (GoError.stream 0)⟩ = Outcome.panic :=
  ⟨rfl, rfl⟩

/-- C5 (amended): for every live root whose config is present, has non-negative
widths and a total width representable as an `int`, and every stream whose
reading fails with `e`, `ReLoad` returns `e` and the live root after the call is
the root before the call: `Data`, `Conf`, `Sup` and `Sub` are unchanged, hence so
is every result of `Find`. -/
theorem C5_reload_failure (rgn : Region) (conf : Conf) (r : Scanner) (e : GoError)
    (hc : rgn.Conf = some conf) (hnn : NonNeg conf) (hfit : Fits conf)
    (he : r.Err = some e) :
    ReLoad rgn r = Outcome.ret (rgn, some e) := by
  obtain ⟨r1, h1, _⟩ :=
    loadLines_ret (NewRegion rgn.Data rgn.Conf SupPtr.nil none) conf r.Lines
      (by simp [NewRegion, hc]) hnn hfit
  simp only [ReLoad, Load, h1, he]

/-- C5, witness: the populated tree `treeOne` and a stream that yields the line
`"101<TAB>B"` before failing. -/
theorem C5_reload_failure_witness :
    ReLoad treeOne ⟨[[49, 48, 49, 9, 66]], some (GoError.stream 7)⟩ =
      Outcome.ret (treeOne, some (GoError.stream 7)) :=
  C5_reload_failure treeOne rootRegionConf ⟨[[49, 48, 49, 9, 66]], some (GoError.stream 7)⟩
    (GoError.stream 7) rfl (by decide) (by decide) rfl

theorem malformed_congr (r1 r2 : Region) (h : r1.Conf = r2.Conf) :
    malformed r1 = malformed r2 := by
  funext line
  unfold malformed
  cases cutFirst TAB line with
  | none => rfl
  | some cd => simp only [dismantleCode_congr r1 r2 _ h]

theorem loadLine_malformed (rgn : Region) (line : GoString) (h : malformed rgn line = true) :
    loadLine rgn line = Outcome.ret rgn := by
  rw [loadLine_eq]
  unfold malformed at h
  cases hcut : cutFirst TAB line with
  | none => rfl
  | some cd =>
    obtain ⟨code, data⟩ := cd
    rw [hcut] at h
    simp only [] at h ⊢
    cases hd : dismantleCode rgn code with
    | panic => rw [hd] at h; simp at h
    | ret v =>
      obtain ⟨ps, err⟩ := v
      cases err with
      | none => rw [hd] at h; simp at h
      | some e => rfl

/-- An iteration of `Load` that returns keeps the config of the root. -/
theorem loadLine_Conf (rgn rgn1 : Region) (line : GoString)
    (h : loadLine rgn line = Outcome.ret rgn1) : rgn1.Conf = rgn.Conf := by
  rw [loadLine_eq] at h
  cases hcut : cutFirst TAB line with
  | none =>
    rw [hcut] at h
    simp only [Outcome.ret.injEq] at h
    rw [← h]
  | some cd =>
    obtain ⟨code, data⟩ := cd
    rw [hcut] at h
    simp only [] at h
    cases hd : dismantleCode rgn code with
    | panic => rw [hd] at h; simp at h
    | ret v =>
      obtain ⟨ps, err⟩ := v
      rw [hd] at h
      cases err with
      | none =>
        simp only [Outcome.ret.injEq] at h
        rw [← h, loadPieces_Conf]
      | some e =>
        simp only [Outcome.ret.injEq] at h
        rw [← h]

theorem loadLines_filter (rgn : Region) (lines : List GoString) :
    loadLines rgn lines = loadLines rgn (lines.filter (fun l => !malformed rgn l)) := by
  induction lines generalizing rgn with
  | nil => rfl
  | cons line rest ih =>
    by_cases hm : malformed rgn line = true
    · rw [loadLines_cons, loadLine_malformed rgn line hm]
      simp only [List.filter_cons, hm, Bool.not_true, Bool.false_eq_true, if_false]
      exact ih rgn
    · have hm1 : malformed rgn line = false := by simpa using hm
      simp only [List.filter_cons, hm1, Bool.not_false, if_true, loadLines_cons]
      cases h1 : loadLine rgn line with
      | panic => rfl
      | ret r1 =>
        simp only []
        rw [ih r1, malformed_congr r1 rgn (loadLine_Conf rgn r1 line h1)]

/-- C8: for every tree and every successfully read list of lines, the outcome of
`Load` on the list, the resulting tree included, equals the outcome of `Load` on
the list with every line removed that has no tab or whose code fails
`dismantleCode`. -/
theorem C8_malformed_lines_no_effect (rgn : Region) (lines : List GoString) :
    Load rgn ⟨lines, none⟩ =
      Load rgn ⟨lines.filter (fun l => !malformed rgn l), none⟩ := by
  simp only [Load]
  rw [← loadLines_filter]

/-! ## ReLoad as a load into a fresh root -/

theorem loadPieces_sameBut (d : GoString) (ps : List GoString) (a b : Region)
    (h : SameBut a b) : SameBut (loadPieces d ps a) (loadPieces d ps b) := by
  obtain ⟨h1, h2, h3⟩ := h
  cases ps with
  | nil =>
    rw [loadPieces_nil, loadPieces_nil]
    exact ⟨rfl, h2, h3⟩
  | cons p ps =>
    rw [loadPieces_cons, loadPieces_cons, h3]
    exact ⟨h1, h2, rfl⟩

theorem loadLine_sameBut (a b : Region) (line : GoString) (h : SameBut a b) :
    (loadLine a line = Outcome.panic ∧ loadLine b line = Outcome.panic) ∨
      ∃ a1 b1, loadLine a line = Outcome.ret a1 ∧ loadLine b line = Outcome.ret b1 ∧
        SameBut a1 b1 := by
  rw [loadLine_eq, loadLine_eq]
  cases cutFirst TAB line with
  | none => exact Or.inr ⟨a, b, rfl, rfl, h⟩
  | some cd =>
    obtain ⟨code, data⟩ := cd
    simp only [dismantleCode_congr a b _ h.2.1]
    cases dismantleCode b code with
    | panic => exact Or.inl ⟨rfl, rfl⟩
    | ret v =>
      obtain ⟨ps, err⟩ := v
      cases err with
      | none => exact Or.inr ⟨_, _, rfl, rfl, loadPieces_sameBut data ps a b h⟩
      | some e => exact Or.inr ⟨a, b, rfl, rfl, h⟩

theorem loadLines_sameBut (a b : Region) (lines : List GoString) (h : SameBut a b) :
    (loadLines a lines = Outcome.panic ∧ loadLines b lines = Outcome.panic) ∨
      ∃ a1 b1, loadLines a lines = Outcome.ret a1 ∧ loadLines b lines = Outcome.ret b1 ∧
        SameBut a1 b1 := by
  induction lines generalizing a b with
  | nil => exact Or.inr ⟨a, b, rfl, rfl, h⟩
  | cons line rest ih =>
    rw [loadLines_cons, loadLines_cons]
    rcases loadLine_sameBut a b line h with ⟨ha, hb⟩ | ⟨a1, b1, ha, hb, h1⟩
    · rw [ha, hb]
      exact Or.inl ⟨rfl, rfl⟩
    · rw [ha, hb]
      exact ih a1 b1 h1

/-- The loop of `dismantleCode` never drops a piece, and it leaves `nw` alone
when it appends none. -/
theorem dismantleLoop_grows (code : GoString) (rest : Conf) (nw nw1 : Int)
    (acc ps : List GoString) (h : dismantleLoop code rest nw acc = Outcome.ret (nw1, ps)) :
    (ps = acc ∧ nw1 = nw) ∨ acc.length < ps.length := by
  induction rest generalizing nw acc with
  | nil =>
    simp only [dismantleLoop, Outcome.ret.injEq, Prod.mk.injEq] at h
    exact Or.inl ⟨h.2.symm, h.1.symm⟩
  | cons e rest ih =>
    simp only [dismantleLoop] at h
    split at h
    · simp only [Outcome.ret.injEq, Prod.mk.injEq] at h
      exact Or.inl ⟨h.2.symm, h.1.symm⟩
    · split at h
      · simp at h
      · rcases ih _ _ h with ⟨h1, _⟩ | h1
        · right
          rw [h1]
          simp
        · right
          simp only [List.length_append, List.length_singleton] at h1
          omega

/-- A successful decomposition has at least one piece. -/
theorem dismantleCode_ne_nil (rgn : Region) (code : GoString) (ps : List GoString)
    (h : dismantleCode rgn code = Outcome.ret (ps, none)) : ps ≠ [] := by
  unfold dismantleCode at h
  cases hc : rgn.Conf with
  | none => rw [hc] at h; simp at h
  | some conf =>
    rw [hc] at h
    simp only [] at h
    cases hl : dismantleLoop code conf 0 [] with
    | panic => rw [hl] at h; simp at h
    | ret v =>
      obtain ⟨nw1, ps1⟩ := v
      rw [hl] at h
      simp only [] at h
      split at h
      · simp at h
      · rename_i hcond
        simp only [Outcome.ret.injEq, Prod.mk.injEq, and_true] at h
        subst h
        simp only [not_or, not_not, ne_eq] at hcond
        rcases dismantleLoop_grows code conf 0 nw1 [] ps1 hl with ⟨_, h2⟩ | h2
        · exfalso
          apply hcond.1
          rw [hcond.2, h2]
        · intro hnil
          rw [hnil] at h2
          simp at h2

theorem Find_sameBut (a b : Region) (code : GoString) (h : SameBut a b) :
    Find a code = Find b code := by
  unfold Find
  rw [dismantleCode_congr a b code h.2.1]
  cases hd : dismantleCode b code with
  | panic => rfl
  | ret v =>
    obtain ⟨ps, err⟩ := v
    cases err with
    | some e => rfl
    | none =>
      simp only []
      cases ps with
      | nil => exact absurd rfl (dismantleCode_ne_nil b code [] hd)
      | cons p ps => rw [findLoop_cons, findLoop_cons, h.2.2]

/-- C6: for every live root `r`, whatever it holds, and every successfully read
list of lines, `ReLoad` behaves as `Load` of the list into a fresh root with the
`Data` and `Conf` of `r` and no children (whatever its `Sup`): either both panic,
or both return nil and afterwards `Find` gives, for every code, the same result
on the live root as on the freshly loaded one; so a code that the freshly loaded
tree does not hold fails with `ErrorRegionNotFound` on the live root, whatever the
old tree held. -/
theorem C6_reload_as_fresh_load (rgn : Region) (lines : List GoString) (sup : SupPtr) :
    (ReLoad rgn ⟨lines, none⟩ = Outcome.panic ∧
      Load (NewRegion rgn.Data rgn.Conf sup none) ⟨lines, none⟩ = Outcome.panic) ∨
    ∃ r1 f1, ReLoad rgn ⟨lines, none⟩ = Outcome.ret (r1, none) ∧
      Load (NewRegion rgn.Data rgn.Conf sup none) ⟨lines, none⟩ = Outcome.ret (f1, none) ∧
      ∀ c, Find r1 c = Find f1 c := by
  have hs : SameBut (NewRegion rgn.Data rgn.Conf SupPtr.nil none)
      (NewRegion rgn.Data rgn.Conf sup none) := ⟨rfl, rfl, rfl⟩
  rcases loadLines_sameBut _ _ lines hs with ⟨ha, hb⟩ | ⟨a1, b1, ha, hb, h1⟩
  · left
    simp only [ReLoad, Load, ha, hb, and_self]
  · right
    refine ⟨a1, b1, ?_, ?_, fun c => Find_sameBut a1 b1 c h1⟩
    · simp only [ReLoad, Load, ha]
    · simp only [Load, hb]

/-! ## The first tab is the only delimiter -/

theorem cutFirst_append (code data : GoString) (h : TAB ∉ code) :
    cutFirst TAB (code ++ TAB :: data) = some (code, data) := by
  induction code with
  | nil => simp [cutFirst]
  | cons b rest ih =>
    have hb : b ≠ TAB := fun e => h (by rw [e]; exact List.mem_cons_self _ _)
    have hr : TAB ∉ rest := fun e => h (List.mem_cons_of_mem _ e)
    have e := ih hr
    rw [List.cons_append]
    simp only [cutFirst, hb, if_false]
    rw [e]

/-! ## Payload of the nodes created by Load -/

theorem loadPieces_Data (d : GoString) (ps : List GoString) (r : Region) (h : r.Data = d) :
    (loadPieces d ps r).Data = d := by
  cases ps with
  | nil => rw [loadPieces_nil]; rfl
  | cons p ps => rw [loadPieces_cons]; exact h

/-- Below a node that `Load` has just created, every node of the path carries
the record's data. -/
theorem nodeAt_loadPieces_fresh (d : GoString) (pre post : List GoString)
    (c : Option Conf) (s : SupPtr) :
    ∃ n, nodeAt (loadPieces d (pre ++ post) (Region.mk d c s [])) pre = some n ∧
      n.Data = d := by
  induction pre generalizing c s with
  | nil => exact ⟨_, rfl, loadPieces_Data d _ _ rfl⟩
  | cons p pre ih =>
    rw [List.cons_append, loadPieces_cons]
    simp only [nodeAt, regionSub_mk, mapGet_mapSet_self, childOr, mapGet, NewRegion]
    exact ih none SupPtr.parent

/-- Every node that is missing on the path before the record is loaded exists
afterwards and carries the record's data. -/
theorem nodeAt_loadPieces_created (d : GoString) (pre post : List GoString) (r : Region)
    (h : nodeAt r pre = none) :
    ∃ n, nodeAt (loadPieces d (pre ++ post) r) pre = some n ∧ n.Data = d := by
  induction pre generalizing r with
  | nil => simp [nodeAt] at h
  | cons p pre ih =>
    rw [List.cons_append, loadPieces_cons]
    simp only [nodeAt, regionSub_mk, mapGet_mapSet_self]
    simp only [nodeAt] at h
    cases hm : mapGet r.Sub p with
    | some sub =>
      rw [hm] at h
      simp only [childOr, hm]
      exact ih sub h
    | none =>
      simp only [childOr, hm, NewRegion]
      exact nodeAt_loadPieces_fresh d pre post none SupPtr.parent

/-- C10, counterexample: with the widths `[1,2,2,2,2]`, loading only the line
`"101<TAB>X"` into a fresh root makes `Find("1")` return a node whose `Data` is
`"X"`, not the empty payload, like the node that `Find("101")` returns: `Load`
creates the intermediate node with `NewRegion(data, nil, nRgn, nil)`. -/
theorem C10_counterexample :
    ∃ rgn1 node leaf,
      Load newRegion ⟨[[49, 48, 49, 9, 88]], none⟩ = Outcome.ret (rgn1, none) ∧
      Find rgn1 [49] = Outcome.ret (some node, none) ∧ node.Data = [88] ∧ node.Data ≠ [] ∧
      Find rgn1 [49, 48, 49] = Outcome.ret (some leaf, none) ∧ leaf.Data = [88] :=
  ⟨_, _, _, rfl, rfl, rfl, by decide, rfl, rfl⟩

/-- C10 (amended): when `Load` processes a record, that is a line with a tab
whose code `dismantleCode` decomposes into pieces, every node of the path that
was missing before the record, the intermediate ones as well as the terminal
one, exists afterwards with the record's data as payload. -/
theorem C10_created_nodes_carry_data (rgn : Region) (line code data : GoString)
    (pieces : List GoString)
    (hline : cutFirst TAB line = some (code, data))
    (hd : dismantleCode rgn code = Outcome.ret (pieces, none)) :
    ∃ rgn1, Load rgn ⟨[line], none⟩ = Outcome.ret (rgn1, none) ∧
      ∀ pre post, pieces = pre ++ post → nodeAt rgn pre = none →
        ∃ n, nodeAt rgn1 pre = some n ∧ n.Data = data := by
  refine ⟨loadPieces data pieces rgn, ?_, ?_⟩
  · simp only [Load, loadLines, loadLine_eq, hline, hd]
  · intro pre post hpp hmiss
    rw [hpp]
    exact nodeAt_loadPieces_created data pre post rgn hmiss

/-- C10, witness: the test root and the line `"101<TAB>X"`, whose code has the
pieces `"1"` and `"01"`. -/
theorem C10_created_nodes_carry_data_witness :
    ∃ rgn1, Load newRegion ⟨[[49, 48, 49, 9, 88]], none⟩ = Outcome.ret (rgn1, none) ∧
      ∀ pre post, [[49], [48, 49]] = pre ++ post → nodeAt newRegion pre = none →
        ∃ n, nodeAt rgn1 pre = some n ∧ n.Data = [88] :=
  C10_created_nodes_carry_data newRegion [49, 48, 49, 9, 88] [49, 48, 49] [88]
    [[49], [48, 49]] (by decide) (by decide)

/-! ## The example of the specification -/

/-- C11, counterexample: with the widths `[1,2,2,2,2]`, after loading
`"1<TAB>亚洲<TAB>Asia"` and `"101<TAB>中国"` into a fresh root, `Find("99")` does
not fail with `ErrorRegionNotFound`: the length 2 is none of the sums 1, 3, 5, 7,
9, and `Find` returns `ErrorRegionCodeIncorrect`. -/
theorem C11_counterexample :
    ∃ rgn1,
      Load newRegion
        ⟨[[49, 9, 228, 186, 154, 230, 180, 178, 9, 65, 115, 105, 97],
          [49, 48, 49, 9, 228, 184, 173, 229, 155, 189]], none⟩ = Outcome.ret (rgn1, none) ∧
      ¬ BoundaryValid rootRegionConf [57, 57] ∧
      Find rgn1 [57, 57] = Outcome.ret (none, some ErrorRegionCodeIncorrect) ∧
      Find rgn1 [57, 57] ≠ Outcome.ret (none, some ErrorRegionNotFound) :=
  ⟨_, rfl, by decide, rfl, fun h => by
    have h2 : (Outcome.ret (none, some ErrorRegionCodeIncorrect) :
        Outcome (Option Region × Option GoError)) =
        Outcome.ret (none, some ErrorRegionNotFound) := h
    simp [ErrorRegionCodeIncorrect, ErrorRegionNotFound] at h2⟩

/-- C11 (amended): with the widths `[1,2,2,2,2]`, after loading two records with
the codes `"1"` and `"101"`, whatever their data, into a fresh root, `Find("99")`
fails with `ErrorRegionCodeIncorrect`: the code `"99"` has the length 2, which is
not the sum of the widths of an initial run of entries. -/
theorem C11_find_99 (d1 d2 : GoString) :
    ∃ rgn1,
      Load newRegion ⟨[[49] ++ TAB :: d1, [49, 48, 49] ++ TAB :: d2], none⟩ =
        Outcome.ret (rgn1, none) ∧
      Find rgn1 [57, 57] = Outcome.ret (none, some ErrorRegionCodeIncorrect) := by
  obtain ⟨r1, h1, hc1⟩ :=
    loadLines_ret newRegion rootRegionConf [[49] ++ TAB :: d1, [49, 48, 49] ++ TAB :: d2] rfl
      (by decide) (by decide)
  refine ⟨r1, by simp only [Load, h1], ?_⟩
  have hd : dismantleCode r1 [57, 57] = Outcome.ret ([], some ErrorRegionCodeIncorrect) := by
    rw [dismantleCode_congr r1 newRegion [57, 57] (by rw [hc1]; rfl)]
    decide
  simp only [Find, hd]

/-! ## Safety of the slices -/

theorem slicesInRange_of_fits (code : GoString) (rest : Conf) (nw : Int)
    (hnn : NonNeg rest) (h0 : 0 ≤ nw)
    (hfit : nw + (rest.map (fun e => e.Width)).sum ≤ MaxInt) :
    slicesInRange code rest nw := by
  induction rest generalizing nw with
  | nil => simp [slicesInRange]
  | cons e rest ih =>
    have he : 0 ≤ e.Width := hnn e (List.mem_cons_self _ _)
    have hs : 0 ≤ (rest.map (fun e => e.Width)).sum := sum_widths_nonneg (nonNeg_tail hnn)
    simp only [List.map_cons, List.sum_cons] at hfit
    have hw : wrapInt (nw + e.Width) = nw + e.Width :=
      wrapInt_eq_self _ (by omega) (by omega)
    simp only [slicesInRange, hw]
    by_cases hgt : nw + e.Width > (code.length : Int)
    · exact Or.inl hgt
    · exact Or.inr ⟨h0, by omega, by omega, ih (nw + e.Width) (nonNeg_tail hnn) (by omega)
        (by omega)⟩

/-- C20, counterexample: the widths `[1, 2^63 - 1]` are non-negative and the
config is present, yet for the code `"1"` the second slice is `code[1:tnw]` with
`tnw = -2^63`: it is out of range and `dismantleCode`, hence `Find`, panics. -/
theorem C20_counterexample :
    NonNeg overflowConf ∧
      (NewRegion [] (some overflowConf) SupPtr.nil none).Conf = some overflowConf ∧
      wrapInt (1 + 9223372036854775807) = -9223372036854775808 ∧
      slice [49] 1 (wrapInt (1 + 9223372036854775807)) = none ∧
      ¬ slicesInRange [49] overflowConf 0 ∧
      dismantleCode (NewRegion [] (some overflowConf) SupPtr.nil none) [49] = Outcome.panic ∧
      Find (NewRegion [] (some overflowConf) SupPtr.nil none) [49] = Outcome.panic := by
  refine ⟨by decide, rfl, by decide, by decide, ?_, by decide, rfl⟩
  simp only [slicesInRange, overflowConf]
  decide

/-- C20 (amended): for every root whose config is present, whose widths are all
non-negative and whose total width is representable as an `int`, and for every
code, each slice `code[nw:tnw]` taken in the loop satisfies
`0 ≤ nw ≤ tnw ≤ len(code)`, and `dismantleCode`, `Find` and an iteration of
`Load` on any line return normally. -/
theorem C20_slices_in_range (rgn : Region) (conf : Conf) (code : GoString)
    (hc : rgn.Conf = some conf) (hnn : NonNeg conf) (hfit : Fits conf) :
    slicesInRange code conf 0 ∧
      (∃ res, dismantleCode rgn code = Outcome.ret res) ∧
      (∃ res, Find rgn code = Outcome.ret res) ∧
      (∀ line, ∃ rgn1, loadLine rgn line = Outcome.ret rgn1) := by
  have hd : ∃ res, dismantleCode rgn code = Outcome.ret res := by
    rcases dismantleCode_cases rgn conf code hc hnn hfit with h | ⟨ps, h, _⟩
    · exact ⟨_, h⟩
    · exact ⟨_, h⟩
  refine ⟨slicesInRange_of_fits code conf 0 hnn (le_refl 0)
    (by unfold Fits at hfit; omega), hd, ?_, ?_⟩
  · obtain ⟨⟨ps, err⟩, h⟩ := hd
    unfold Find
    rw [h]
    cases err with
    | none => exact ⟨_, rfl⟩
    | some e => exact ⟨_, rfl⟩
  · intro line
    obtain ⟨r1, h1, _⟩ := loadLine_cases rgn conf line hc hnn hfit
    exact ⟨r1, h1⟩

/-- C20, witness: the test root and the code `"1010201161"`, longer than the sum
of all widths. -/
theorem C20_slices_in_range_witness :
    slicesInRange [49, 48, 49, 48, 50, 48, 49, 49, 54, 49] rootRegionConf 0 ∧
      (∃ res, dismantleCode newRegion [49, 48, 49, 48, 50, 48, 49, 49, 54, 49] =
        Outcome.ret res) ∧
      (∃ res, Find newRegion [49, 48, 49, 48, 50, 48, 49, 49, 54, 49] = Outcome.ret res) ∧
      (∀ line, ∃ rgn1, loadLine newRegion line = Outcome.ret rgn1) :=
  C20_slices_in_range newRegion rootRegionConf [49, 48, 49, 48, 50, 48, 49, 49, 54, 49] rfl
    (by decide) (by decide)

/-! ## The pieces are consecutive substrings -/

theorem slice_some (code p : GoString) (lo hi : Int) (h : slice code lo hi = some p) :
    0 ≤ lo ∧ lo ≤ hi ∧ hi ≤ (code.length : Int) ∧
      p = (code.drop lo.toNat).take (hi - lo).toNat := by
  unfold slice at h
  split at h
  · rename_i hc
    simp only [Option.some.injEq] at h
    exact ⟨hc.1, hc.2.1, hc.2.2, h.symm⟩
  · simp at h

/-- Whatever the config, a loop of `dismantleCode` that returns has appended the
bytes of the code between the old and the new value of `nw`, in order. -/
theorem dismantleLoop_flatten (code : GoString) (rest : Conf) (nw nw1 : Int)
    (acc ps : List GoString) (h : dismantleLoop code rest nw acc = Outcome.ret (nw1, ps))
    (h0 : 0 ≤ nw) :
    nw ≤ nw1 ∧ (nw ≤ (code.length : Int) → nw1 ≤ (code.length : Int)) ∧
      ps.flatten = acc.flatten ++ (code.drop nw.toNat).take (nw1 - nw).toNat := by
  induction rest generalizing nw acc with
  | nil =>
    simp only [dismantleLoop, Outcome.ret.injEq, Prod.mk.injEq] at h
    obtain ⟨rfl, rfl⟩ := h
    simp
  | cons e rest ih =>
    simp only [dismantleLoop] at h
    split at h
    · simp only [Outcome.ret.injEq, Prod.mk.injEq] at h
      obtain ⟨rfl, rfl⟩ := h
      simp
    · split at h
      · simp at h
      · rename_i p hp
        obtain ⟨_, hlo, hhi, rfl⟩ := slice_some _ _ _ _ hp
        obtain ⟨i1, i2, i3⟩ := ih _ _ h (by omega)
        refine ⟨by omega, fun _ => i2 hhi, ?_⟩
        rw [i3]
        simp only [List.flatten_append, List.flatten_cons, List.flatten_nil, List.append_nil,
          List.append_assoc]
        congr 1
        have e1 : (nw1 - nw).toNat =
            (wrapInt (nw + e.Width) - nw).toNat + (nw1 - wrapInt (nw + e.Width)).toNat := by
          omega
        have e2 : (wrapInt (nw + e.Width)).toNat =
            nw.toNat + (wrapInt (nw + e.Width) - nw).toNat := by
          omega
        rw [e1, List.take_add, List.drop_drop, ← e2]

theorem cutBy_of_flatten (ps : List GoString) :
    cutBy (ps.map (fun p => (p.length : Int))) ps.flatten = ps := by
  induction ps with
  | nil => simp [cutBy]
  | cons p ps ih =>
    simp only [List.map_cons, List.flatten_cons, cutBy, Int.toNat_ofNat, List.take_left',
      List.drop_left', ih]

/-- Whatever the config, the pieces of a successful decomposition concatenate to
the code. -/
theorem dismantleCode_flatten (rgn : Region) (code : GoString) (ps : List GoString)
    (h : dismantleCode rgn code = Outcome.ret (ps, none)) : ps.flatten = code := by
  unfold dismantleCode at h
  cases hc : rgn.Conf with
  | none => rw [hc] at h; simp at h
  | some conf =>
    rw [hc] at h
    simp only [] at h
    cases hl : dismantleLoop code conf 0 [] with
    | panic => rw [hl] at h; simp at h
    | ret v =>
      obtain ⟨nw1, ps1⟩ := v
      rw [hl] at h
      simp only [] at h
      split at h
      · simp at h
      · rename_i hcond
        simp only [Outcome.ret.injEq, Prod.mk.injEq, and_true] at h
        subst h
        simp only [not_or, not_not, ne_eq] at hcond
        obtain ⟨_, _, i3⟩ := dismantleLoop_flatten code conf 0 nw1 [] ps1 hl (le_refl 0)
        rw [i3, ← hcond.2]
        simp

/-- C16: whenever `dismantleCode` succeeds on a code, whatever the config, the
pieces it returns are the consecutive substrings of the code cut at their own
lengths, in order, and their concatenation is the code. -/
theorem C16_pieces_concat (rgn : Region) (code : GoString) (pieces : List GoString)
    (h : dismantleCode rgn code = Outcome.ret (pieces, none)) :
    pieces.flatten = code ∧
      pieces = cutBy (pieces.map (fun p => (p.length : Int))) code := by
  have hf := dismantleCode_flatten rgn code pieces h
  refine ⟨hf, ?_⟩
  conv => rhs; rw [← hf]
  exact (cutBy_of_flatten pieces).symm

/-- C16, witness: the test root and the code `"10102"`, cut into `"1"`, `"01"`,
`"02"`. -/
theorem C16_pieces_concat_witness :
    dismantleCode newRegion [49, 48, 49, 48, 50] =
        Outcome.ret ([[49], [48, 49], [48, 50]], none) ∧
      ([[49], [48, 49], [48, 50]] : List GoString).flatten = [49, 48, 49, 48, 50] ∧
      ([[49], [48, 49], [48, 50]] : List GoString) =
        cutBy (([[49], [48, 49], [48, 50]] : List GoString).map (fun p => (p.length : Int)))
          [49, 48, 49, 48, 50] :=
  ⟨by decide,
    C16_pieces_concat newRegion [49, 48, 49, 48, 50] [[49], [48, 49], [48, 50]] (by decide)⟩

/-! ## Find descends one level per piece -/

theorem findLoop_eq_nodeAt (ps : List GoString) (r : Region) :
    findLoop ps r =
      match nodeAt r ps with
      | some n => (some n, none)
      | none => (none, some ErrorRegionNotFound) := by
  induction ps generalizing r with
  | nil => rfl
  | cons p ps ih =>
    simp only [findLoop, nodeAt]
    cases mapGet r.Sub p with
    | none => rfl
    | some sub => exact ih sub

theorem findLoop_some_iff (ps : List GoString) (r node : Region) :
    findLoop ps r = (some node, none) ↔ nodeAt r ps = some node := by
  rw [findLoop_eq_nodeAt]
  cases nodeAt r ps with
  | none => simp
  | some n => simp

theorem nodeAt_append (r : Region) (ps qs : List GoString) :
    nodeAt r (ps ++ qs) =
      match nodeAt r ps with
      | some m => nodeAt m qs
      | none => none := by
  induction ps generalizing r with
  | nil => rfl
  | cons p ps ih =>
    simp only [List.cons_append, nodeAt]
    cases mapGet r.Sub p with
    | none => rfl
    | some sub => exact ih sub

theorem nodeAt_append_one (r node : Region) (ps : List GoString) (p : GoString) :
    nodeAt r (ps ++ [p]) = some node ↔
      ∃ m, nodeAt r ps = some m ∧ mapGet m.Sub p = some node := by
  rw [nodeAt_append]
  cases nodeAt r ps with
  | none => simp
  | some m =>
    simp only [nodeAt, Option.some.injEq, exists_eq_left']
    cases mapGet m.Sub p with
    | none => simp
    | some s => simp

theorem cutBy_append (ws1 ws2 : List Int) (s1 s2 : GoString) (hnn : ∀ w ∈ ws1, 0 ≤ w)
    (hsum : ws1.sum = (s1.length : Int)) :
    cutBy (ws1 ++ ws2) (s1 ++ s2) = cutBy ws1 s1 ++ cutBy ws2 s2 := by
  induction ws1 generalizing s1 with
  | nil =>
    simp only [List.sum_nil] at hsum
    have : s1 = [] := List.length_eq_zero.mp (by omega)
    simp [cutBy, this]
  | cons w ws ih =>
    have hw : 0 ≤ w := hnn w (List.mem_cons_self _ _)
    have hs : 0 ≤ ws.sum := List.sum_nonneg (fun x hx => hnn x (List.mem_cons_of_mem _ hx))
    simp only [List.sum_cons] at hsum
    have hle : w.toNat ≤ s1.length := by omega
    simp only [List.cons_append, cutBy, List.take_append_of_le_length hle,
      List.drop_append_of_le_length hle]
    congr 1
    exact ih (s1.drop w.toNat) (fun x hx => hnn x (List.mem_cons_of_mem _ hx))
      (by simp only [List.length_drop]; omega)

theorem headSum_succ (conf : Conf) (k : Nat) (e : ConfEntry) (hk : conf[k]? = some e) :
    headSum conf (k + 1) = headSum conf k + e.Width := by
  simp [headSum, List.take_succ, hk]

/-- C15, counterexample: with the positive widths `[1, 2, 2^63 - 1]`, `k = 1`,
`c = "1"` and `p = "01"`, `Find("1")` succeeds with a node whose `Sub` holds the
key `"01"`, yet `Find("101")` does not succeed: the third sum wraps and the slice
is out of range, so `Find` panics. -/
theorem C15_counterexample :
    Positive lateOverflowConf ∧ 1 ≤ 1 ∧ 1 < lateOverflowConf.length ∧
      (([49] : GoString).length : Int) = headSum lateOverflowConf 1 ∧
      lateOverflowConf[1]? = some ⟨[], 2⟩ ∧ (([48, 49] : GoString).length : Int) = 2 ∧
      (∃ m leaf, Find treeLate [49] = Outcome.ret (some m, none) ∧
        mapGet m.Sub [48, 49] = some leaf) ∧
      Find treeLate ([49] ++ [48, 49]) = Outcome.panic :=
  ⟨by decide, by decide, by decide, by decide, by decide, by decide, ⟨_, _, rfl, rfl⟩, rfl⟩

/-- C15 (amended): for every tree whose root config has positive widths
`[w1..wn]` and a total width representable as an `int`, every `k` with
`1 ≤ k < n`, every code `c` of length `w1 + ... + wk` and every string `p` of
length `w(k+1)`: `Find(c ++ p)` succeeds with a node exactly when `Find(c)`
succeeds with some node `m` and that node is `m.Sub[p]`. -/
theorem C15_find_descends (rgn : Region) (conf : Conf) (c p : GoString) (k : Nat)
    (e : ConfEntry)
    (hc : rgn.Conf = some conf) (hpos : Positive conf) (hfit : Fits conf)
    (hk1 : 1 ≤ k) (hk : conf[k]? = some e)
    (hlen : (c.length : Int) = headSum conf k) (hp : (p.length : Int) = e.Width) :
    ∀ node, Find rgn (c ++ p) = Outcome.ret (some node, none) ↔
      ∃ m, Find rgn c = Outcome.ret (some m, none) ∧ mapGet m.Sub p = some node := by
  have hkn : k < conf.length := by
    rcases Nat.lt_or_ge k conf.length with h | h
    · exact h
    · rw [List.getElem?_eq_none h] at hk
      simp at hk
  have hnn := positive_nonNeg hpos
  have hlen2 : (((c ++ p).length : Nat) : Int) = headSum conf (k + 1) := by
    rw [headSum_succ conf k e hk, List.length_append]
    push_cast
    omega
  have d1 := dismantleCode_ok rgn conf c k hc hpos hfit hk1 (le_of_lt hkn) hlen
  have d2 := dismantleCode_ok rgn conf (c ++ p) (k + 1) hc hpos hfit (by omega) hkn hlen2
  have hcut : cutBy ((conf.take (k + 1)).map (fun e => e.Width)) (c ++ p) =
      cutBy ((conf.take k).map (fun e => e.Width)) c ++ [p] := by
    rw [List.take_succ, hk]
    simp only [Option.toList, List.map_append, List.map_cons, List.map_nil]
    rw [cutBy_append]
    · have : e.Width.toNat = p.length := by omega
      simp [cutBy, this]
    · intro w hw
      obtain ⟨x, hx, rfl⟩ := List.mem_map.mp hw
      exact hnn x (List.mem_of_mem_take hx)
    · exact hlen.symm
  intro node
  rw [Find_eq_findLoop rgn (c ++ p) _ d2, Find_eq_findLoop rgn c _ d1, hcut]
  simp only [Outcome.ret.injEq, findLoop_some_iff]
  exact nodeAt_append_one rgn node _ p

/-- C15, witness: the populated tree `treeTwo` over the test config, `k = 1`,
`c = "1"`, `p = "01"` and the node stored under `"1"`, `"01"`. -/
theorem C15_find_descends_witness :
    Find treeTwo ([49] ++ [48, 49]) =
        Outcome.ret (some (Region.mk [66] none SupPtr.parent []), none) ↔
      ∃ m, Find treeTwo [49] = Outcome.ret (some m, none) ∧
        mapGet m.Sub [48, 49] = some (Region.mk [66] none SupPtr.parent []) :=
  C15_find_descends treeTwo rootRegionConf [49] [48, 49] 1 ⟨[99, 111, 117, 110, 116, 114, 121], 2⟩
    rfl (by decide) (by decide) (by decide) (by decide) (by decide) (by decide)
    (Region.mk [66] none SupPtr.parent [])

/-! ## The tree-shape invariant -/

/-- With non-negative widths of type `int`, a loop of `dismantleCode` that
returns has consumed some entries without wrapping and appended the consecutive
substrings of their widths. -/
theorem dismantleLoop_ret_cut (code : GoString) (rest : Conf) (nw nw1 : Int)
    (acc ps : List GoString) (hnn : NonNeg rest) (hint : IntWidths rest)
    (h0 : 0 ≤ nw) (h1 : nw ≤ MaxInt)
    (h : dismantleLoop code rest nw acc = Outcome.ret (nw1, ps)) :
    ∃ j, j ≤ rest.length ∧ nw1 = nw + headSum rest j ∧
      ps = acc ++ cutBy ((rest.take j).map (fun e => e.Width)) (code.drop nw.toNat) := by
  induction rest generalizing nw acc with
  | nil =>
    simp only [dismantleLoop, Outcome.ret.injEq, Prod.mk.injEq] at h
    obtain ⟨rfl, rfl⟩ := h
    exact ⟨0, le_refl _, by simp [headSum], by simp [cutBy]⟩
  | cons e rest ih =>
    have he : 0 ≤ e.Width := hnn e (List.mem_cons_self _ _)
    have he2 : e.Width ≤ MaxInt := hint e (List.mem_cons_self _ _)
    simp only [dismantleLoop] at h
    split at h
    · simp only [Outcome.ret.injEq, Prod.mk.injEq] at h
      obtain ⟨rfl, rfl⟩ := h
      exact ⟨0, Nat.zero_le _, by simp [headSum], by simp [cutBy]⟩
    · split at h
      · simp at h
      · rename_i p hp
        obtain ⟨_, hlo, hhi, rfl⟩ := slice_some _ _ _ _ hp
        have hw : wrapInt (nw + e.Width) = nw + e.Width := by
          unfold wrapInt MaxInt at *
          omega
        rw [hw] at h hlo hhi
        obtain ⟨j, hj, hn, hps⟩ :=
          ih (nw + e.Width) _ (nonNeg_tail hnn)
            (fun x hx => hint x (List.mem_cons_of_mem _ hx)) (by omega)
            (by unfold wrapInt MaxInt at *; omega) h
        refine ⟨j + 1, by simp only [List.length_cons]; omega, ?_, ?_⟩
        · rw [headSum_cons_succ, hn]
          omega
        · rw [hps]
          have e2 : (nw + e.Width).toNat = nw.toNat + e.Width.toNat := by omega
          have e3 : (nw + e.Width - nw).toNat = e.Width.toNat := by
            congr 1; omega
          rw [e2, e3]
          simp [cutBy, List.drop_drop, add_comm]

/-- With non-negative widths of type `int`, the lengths of the pieces of a
successful decomposition are the widths of the entries consumed. -/
theorem dismantleCode_pieces_widths (rgn : Region) (conf : Conf) (code : GoString)
    (ps : List GoString) (hc : rgn.Conf = some conf) (hnn : NonNeg conf)
    (hint : IntWidths conf) (h : dismantleCode rgn code = Outcome.ret (ps, none)) :
    ∃ j, ps.map (fun p => (p.length : Int)) = (conf.map (fun e => e.Width)).take j := by
  unfold dismantleCode at h
  rw [hc] at h
  simp only [] at h
  cases hl : dismantleLoop code conf 0 [] with
  | panic => rw [hl] at h; simp at h
  | ret v =>
    obtain ⟨nw1, ps1⟩ := v
    rw [hl] at h
    simp only [] at h
    split at h
    · simp at h
    · rename_i hcond
      simp only [Outcome.ret.injEq, Prod.mk.injEq, and_true] at h
      subst h
      simp only [not_or, not_not, ne_eq] at hcond
      obtain ⟨j, _, hn, hps⟩ :=
        dismantleLoop_ret_cut code conf 0 nw1 [] ps1 hnn hint (le_refl 0)
          (by unfold MaxInt; omega) hl
      refine ⟨j, ?_⟩
      rw [hps, List.nil_append, ← List.map_take]
      apply cutBy_map_length
      · intro w hw
        obtain ⟨x, hx, rfl⟩ := List.mem_map.mp hw
        exact hnn x (List.mem_of_mem_take hx)
      · simp only [Int.toNat_zero, List.drop_zero]
        have : headSum conf j = nw1 := by omega
        unfold headSum at this
        rw [this, hcond.2]

theorem mem_mapSet (m : List (GoString × Region)) (p : GoString) (v : Region)
    (kc : GoString × Region) (h : kc ∈ mapSet m p v) : kc = (p, v) ∨ kc ∈ m := by
  induction m with
  | nil =>
    simp only [mapSet, List.mem_singleton] at h
    exact Or.inl h
  | cons x rest ih =>
    obtain ⟨k, w⟩ := x
    simp only [mapSet] at h
    split at h
    · rcases List.mem_cons.mp h with h1 | h1
      · exact Or.inl h1
      · exact Or.inr (List.mem_cons_of_mem _ h1)
    · rcases List.mem_cons.mp h with h1 | h1
      · exact Or.inr (by rw [h1]; exact List.mem_cons_self _ _)
      · rcases ih h1 with h2 | h2
        · exact Or.inl h2
        · exact Or.inr (List.mem_cons_of_mem _ h2)

theorem mapGet_mem (m : List (GoString × Region)) (p : GoString) (v : Region)
    (h : mapGet m p = some v) : (p, v) ∈ m := by
  induction m with
  | nil => simp [mapGet] at h
  | cons x rest ih =>
    obtain ⟨k, w⟩ := x
    simp only [mapGet] at h
    split at h
    · rename_i hk
      simp only [Option.some.injEq] at h
      rw [hk, h]
      exact List.mem_cons_self _ _
    · exact List.mem_cons_of_mem _ (ih h)

theorem shaped_of_sub_nil (ws : List Int) (r : Region) (h : r.Sub = []) : Shaped ws r := by
  cases ws with
  | nil => exact h
  | cons w ws =>
    intro kc hkc
    rw [h] at hkc
    cases hkc

theorem shaped_congr (ws : List Int) (a b : Region) (h : a.Sub = b.Sub) (ha : Shaped ws a) :
    Shaped ws b := by
  cases ws with
  | nil =>
    simp only [Shaped] at ha ⊢
    rw [← h]; exact ha
  | cons w ws =>
    simp only [Shaped] at ha ⊢
    rw [← h]; exact ha

/-- Storing a record along pieces whose lengths are the leading widths keeps the
shape. -/
theorem shaped_loadPieces (d : GoString) (ps : List GoString) (ws : List Int) (r : Region)
    (j : Nat) (hps : ps.map (fun p => (p.length : Int)) = ws.take j) (h : Shaped ws r) :
    Shaped ws (loadPieces d ps r) := by
  induction ps generalizing ws r j with
  | nil =>
    rw [loadPieces_nil]
    exact shaped_congr ws r _ rfl h
  | cons p ps ih =>
    rw [loadPieces_cons]
    cases ws with
    | nil => simp at hps
    | cons w ws =>
      cases j with
      | zero => simp at hps
      | succ j =>
        simp only [List.map_cons, List.take_succ_cons, List.cons.injEq] at hps
        simp only [Shaped, regionSub_mk] at h ⊢
        intro kc hkc
        rcases mem_mapSet _ _ _ _ hkc with h1 | h1
        · rw [h1]
          refine ⟨hps.1, ih ws _ j hps.2 ?_⟩
          unfold childOr
          cases hm : mapGet r.Sub p with
          | none => exact shaped_of_sub_nil ws _ rfl
          | some sub => exact (h _ (mapGet_mem _ _ _ hm)).2
        · exact h kc h1

theorem shaped_loadLine (conf : Conf) (hnn : NonNeg conf) (hint : IntWidths conf)
    (rgn rgn1 : Region) (line : GoString) (hc : rgn.Conf = some conf)
    (hs : Shaped (conf.map (fun e => e.Width)) rgn)
    (h : loadLine rgn line = Outcome.ret rgn1) :
    Shaped (conf.map (fun e => e.Width)) rgn1 := by
  rw [loadLine_eq] at h
  cases hcut : cutFirst TAB line with
  | none =>
    rw [hcut] at h
    simp only [Outcome.ret.injEq] at h
    rw [← h]; exact hs
  | some cd =>
    obtain ⟨code, data⟩ := cd
    rw [hcut] at h
    simp only [] at h
    cases hd : dismantleCode rgn code with
    | panic => rw [hd] at h; simp at h
    | ret v =>
      obtain ⟨ps, err⟩ := v
      rw [hd] at h
      cases err with
      | none =>
        simp only [Outcome.ret.injEq] at h
        rw [← h]
        obtain ⟨j, hj⟩ := dismantleCode_pieces_widths rgn conf code ps hc hnn hint hd
        exact shaped_loadPieces data ps _ rgn j hj hs
      | some e =>
        simp only [Outcome.ret.injEq] at h
        rw [← h]; exact hs

theorem shaped_loadLines (conf : Conf) (hnn : NonNeg conf) (hint : IntWidths conf)
    (lines : List GoString) (rgn rgn1 : Region) (hc : rgn.Conf = some conf)
    (hs : Shaped (conf.map (fun e => e.Width)) rgn)
    (h : loadLines rgn lines = Outcome.ret rgn1) :
    rgn1.Conf = some conf ∧ Shaped (conf.map (fun e => e.Width)) rgn1 := by
  induction lines generalizing rgn with
  | nil =>
    simp only [loadLines, Outcome.ret.injEq] at h
    rw [← h]; exact ⟨hc, hs⟩
  | cons line rest ih =>
    rw [loadLines_cons] at h
    cases h1 : loadLine rgn line with
    | panic => rw [h1] at h; simp at h
    | ret r1 =>
      rw [h1] at h
      exact ih r1 (by rw [loadLine_Conf rgn r1 line h1, hc])
        (shaped_loadLine conf hnn hint rgn r1 line hc hs h1) h

theorem shaped_Load (conf : Conf) (hnn : NonNeg conf) (hint : IntWidths conf)
    (rgn rgn1 : Region) (s : Scanner) (err : Option GoError) (hc : rgn.Conf = some conf)
    (hs : Shaped (conf.map (fun e => e.Width)) rgn)
    (h : Load rgn s = Outcome.ret (rgn1, err)) :
    rgn1.Conf = some conf ∧ Shaped (conf.map (fun e => e.Width)) rgn1 := by
  unfold Load at h
  cases h1 : loadLines rgn s.Lines with
  | panic => rw [h1] at h; simp at h
  | ret r1 =>
    rw [h1] at h
    simp only [Outcome.ret.injEq, Prod.mk.injEq] at h
    rw [← h.1]
    exact shaped_loadLines conf hnn hint s.Lines rgn r1 hc hs h1

theorem shaped_ReLoad (conf : Conf) (hnn : NonNeg conf) (hint : IntWidths conf)
    (rgn rgn1 : Region) (s : Scanner) (err : Option GoError) (hc : rgn.Conf = some conf)
    (hs : Shaped (conf.map (fun e => e.Width)) rgn)
    (h : ReLoad rgn s = Outcome.ret (rgn1, err)) :
    rgn1.Conf = some conf ∧ Shaped (conf.map (fun e => e.Width)) rgn1 := by
  unfold ReLoad at h
  cases h1 : Load (NewRegion rgn.Data rgn.Conf SupPtr.nil none) s with
  | panic => rw [h1] at h; simp at h
  | ret v =>
    obtain ⟨n, e⟩ := v
    rw [h1] at h
    cases e with
    | some e1 =>
      simp only [Outcome.ret.injEq, Prod.mk.injEq] at h
      rw [← h.1]; exact ⟨hc, hs⟩
    | none =>
      simp only [Outcome.ret.injEq, Prod.mk.injEq] at h
      rw [← h.1]
      exact shaped_Load conf hnn hint (NewRegion rgn.Data rgn.Conf SupPtr.nil none) n s none
        (by simp [NewRegion, hc])
        (shaped_of_sub_nil _ (NewRegion rgn.Data rgn.Conf SupPtr.nil none) rfl) h1

/-- C13: for a config with positive widths `[w1..wn]` (values of type `int`),
the fresh root has the tree shape, `Load` and `ReLoad` preserve it whenever they
return, and so every tree obtained from a fresh root by a sequence of `Load` and
`ReLoad` calls has it: every node at depth `k` has children keyed only by strings
whose length is the width of entry `k`, and a node at depth `n` has no child. -/
theorem C13_tree_shape (conf : Conf) (data : GoString)
    (hpos : Positive conf) (hint : IntWidths conf) :
    (∀ sup, Shaped (conf.map (fun e => e.Width)) (NewRegion data (some conf) sup none)) ∧
    (∀ rgn s rgn1 err, rgn.Conf = some conf → Shaped (conf.map (fun e => e.Width)) rgn →
      Load rgn s = Outcome.ret (rgn1, err) → Shaped (conf.map (fun e => e.Width)) rgn1) ∧
    (∀ rgn s rgn1 err, rgn.Conf = some conf → Shaped (conf.map (fun e => e.Width)) rgn →
      ReLoad rgn s = Outcome.ret (rgn1, err) → Shaped (conf.map (fun e => e.Width)) rgn1) ∧
    (∀ rgn, Reachable conf data rgn → Shaped (conf.map (fun e => e.Width)) rgn) := by
  have hnn := positive_nonNeg hpos
  refine ⟨fun sup => shaped_of_sub_nil _ (NewRegion data (some conf) sup none) rfl,
    fun rgn s rgn1 err hc hs h => (shaped_Load conf hnn hint rgn rgn1 s err hc hs h).2,
    fun rgn s rgn1 err hc hs h => (shaped_ReLoad conf hnn hint rgn rgn1 s err hc hs h).2, ?_⟩
  intro rgn hr
  have : rgn.Conf = some conf ∧ Shaped (conf.map (fun e => e.Width)) rgn := by
    induction hr with
    | fresh sup => exact ⟨rfl, shaped_of_sub_nil _ (NewRegion data (some conf) sup none) rfl⟩
    | load r r1 s err _ h ih => exact shaped_Load conf hnn hint r r1 s err ih.1 ih.2 h
    | reload r r1 s err _ h ih => exact shaped_ReLoad conf hnn hint r r1 s err ih.1 ih.2 h
  exact this.2

/-- C13, witness: the test config `[1,2,2,2,2]` and the test payload. -/
theorem C13_tree_shape_witness :
    (∀ sup, Shaped (rootRegionConf.map (fun e => e.Width))
      (NewRegion rootRegionData (some rootRegionConf) sup none)) ∧
    (∀ rgn s rgn1 err, rgn.Conf = some rootRegionConf →
      Shaped (rootRegionConf.map (fun e => e.Width)) rgn →
      Load rgn s = Outcome.ret (rgn1, err) →
      Shaped (rootRegionConf.map (fun e => e.Width)) rgn1) ∧
    (∀ rgn s rgn1 err, rgn.Conf = some rootRegionConf →
      Shaped (rootRegionConf.map (fun e => e.Width)) rgn →
      ReLoad rgn s = Outcome.ret (rgn1, err) →
      Shaped (rootRegionConf.map (fun e => e.Width)) rgn1) ∧
    (∀ rgn, Reachable rootRegionConf rootRegionData rgn →
      Shaped (rootRegionConf.map (fun e => e.Width)) rgn) :=
  C13_tree_shape rootRegionConf rootRegionData (by decide) (by decide)

/-! ## The tree as a map from paths to payloads -/

theorem hasData_iff (r : Region) (qs : List GoString) (d : GoString) :
    HasData r qs d ↔ ∃ n, nodeAt r qs = some n ∧ n.Data = d := by
  unfold HasData
  simp only [findLoop_some_iff]

theorem nodeAt_cons_mk (d : GoString) (c : Option Conf) (s : SupPtr)
    (m : List (GoString × Region)) (q : GoString) (qs : List GoString) :
    nodeAt (Region.mk d c s m) (q :: qs) =
      match mapGet m q with
      | none => none
      | some subRgn => nodeAt subRgn qs := by
  simp only [nodeAt, regionSub_mk]

/-- A path exists after a record is stored exactly when it existed before or
leads towards the node of the record. -/
theorem nodeAt_loadPieces_exists (d : GoString) (ps : List GoString) (r : Region)
    (qs : List GoString) :
    (∃ n, nodeAt (loadPieces d ps r) qs = some n) ↔
      ((∃ n, nodeAt r qs = some n) ∨ ∃ post, ps = qs ++ post) := by
  induction ps generalizing r qs with
  | nil =>
    rw [loadPieces_nil]
    cases qs with
    | nil =>
      simp only [nodeAt, Option.some.injEq, exists_eq', List.nil_append, true_or]
    | cons q qs =>
      rw [nodeAt_cons_mk]
      simp only [nodeAt, List.cons_append, List.nil_eq, reduceCtorEq, exists_false, or_false]
  | cons p ps ih =>
    rw [loadPieces_cons]
    cases qs with
    | nil =>
      simp only [nodeAt, Option.some.injEq, exists_eq', List.nil_append, true_or]
    | cons q qs =>
      rw [nodeAt_cons_mk]
      by_cases hq : q = p
      · subst hq
        rw [mapGet_mapSet_self]
        simp only []
        rw [ih]
        simp only [nodeAt, List.cons_append, List.cons.injEq, true_and, childOr]
        cases hm : mapGet r.Sub q with
        | some sub => rfl
        | none =>
          simp only [NewRegion, exists_false, false_or]
          constructor
          · rintro (⟨n, hn⟩ | h)
            · cases qs with
              | nil => exact Or.inr ⟨ps, rfl⟩
              | cons a qs => simp [nodeAt, mapGet] at hn
            · exact Or.inr h
          · rintro (⟨n, hn⟩ | h)
            · cases hn
            · exact Or.inr h
      · rw [mapGet_mapSet_ne _ _ _ _ hq]
        simp only [nodeAt, List.cons_append, List.cons.injEq, hq, Ne.symm hq, false_and,
          exists_false, or_false]

theorem applyRecords_append (a b : List (List GoString × GoString)) (r : Region) :
    applyRecords (a ++ b) r = applyRecords b (applyRecords a r) := by
  induction a generalizing r with
  | nil => rfl
  | cons x xs ih =>
    simp only [List.cons_append, applyRecords]
    exact ih _

theorem applyRecords_Conf (recs : List (List GoString × GoString)) (r : Region) :
    (applyRecords recs r).Conf = r.Conf := by
  induction recs generalizing r with
  | nil => rfl
  | cons x xs ih => simp only [applyRecords, ih, loadPieces_Conf]

/-- A path exists after the records are stored exactly when it existed before or
leads towards the node of one of the records. -/
theorem nodeAt_applyRecords_exists (recs : List (List GoString × GoString)) (r : Region)
    (qs : List GoString) :
    (∃ n, nodeAt (applyRecords recs r) qs = some n) ↔
      ((∃ n, nodeAt r qs = some n) ∨ ∃ x ∈ recs, ∃ post, x.1 = qs ++ post) := by
  induction recs generalizing r with
  | nil => simp [applyRecords]
  | cons x xs ih =>
    simp only [applyRecords]
    rw [ih, nodeAt_loadPieces_exists]
    simp only [List.mem_cons, exists_eq_or_imp]
    tauto

/-- Records for other paths leave the node of a path in place with its payload. -/
theorem hasData_applyRecords_other (recs : List (List GoString × GoString)) (r : Region)
    (qs : List GoString) (d : GoString) (hno : ∀ x ∈ recs, x.1 ≠ qs) (h : HasData r qs d) :
    HasData (applyRecords recs r) qs d := by
  induction recs generalizing r with
  | nil => exact h
  | cons x xs ih =>
    simp only [applyRecords]
    apply ih _ (fun y hy => hno y (List.mem_cons_of_mem _ hy))
    exact hasData_loadPieces_other _ _ _ _ _
      (fun e => hno x (List.mem_cons_self _ _) e.symm) h

/-- The last record for a path decides the payload of its node. -/
theorem hasData_applyRecords_last (pre post : List (List GoString × GoString)) (r : Region)
    (qs : List GoString) (d : GoString) (hno : ∀ x ∈ post, x.1 ≠ qs) :
    HasData (applyRecords (pre ++ (qs, d) :: post) r) qs d := by
  rw [applyRecords_append]
  simp only [applyRecords]
  exact hasData_applyRecords_other post _ qs d hno (hasData_loadPieces_self d qs _)

theorem exists_last_of_exists {α : Type} (P : α → Prop) (l : List α) (h : ∃ x ∈ l, P x) :
    ∃ pre x post, l = pre ++ x :: post ∧ P x ∧ ∀ y ∈ post, ¬ P y := by
  induction l with
  | nil =>
    obtain ⟨x, hx, _⟩ := h
    cases hx
  | cons a l ih =>
    by_cases hl : ∃ x ∈ l, P x
    · obtain ⟨pre, x, post, he, hp, hno⟩ := ih hl
      exact ⟨a :: pre, x, post, by rw [he]; rfl, hp, hno⟩
    · obtain ⟨x, hx, hp⟩ := h
      rcases List.mem_cons.mp hx with h1 | h1
      · subst h1
        exact ⟨[], x, l, rfl, hp, fun y hy hpy => hl ⟨y, hy, hpy⟩⟩
      · exact absurd ⟨x, h1, hp⟩ hl

/-- Storing the same records a second time changes neither which paths exist nor
the payload at any path. -/
theorem applyRecords_twice (recs : List (List GoString × GoString)) (r : Region)
    (qs : List GoString) :
    (nodeAt (applyRecords recs (applyRecords recs r)) qs).map Region.Data =
      (nodeAt (applyRecords recs r) qs).map Region.Data := by
  by_cases hex : ∃ x ∈ recs, x.1 = qs
  · obtain ⟨pre, x, post, he, hx, hno⟩ := exists_last_of_exists (fun x => x.1 = qs) recs hex
    obtain ⟨ps, d⟩ := x
    simp only at hx
    subst hx
    have h1 := hasData_applyRecords_last pre post r ps d hno
    have h2 := hasData_applyRecords_last pre post (applyRecords recs r) ps d hno
    rw [← he] at h1 h2
    rw [hasData_iff] at h1 h2
    obtain ⟨n1, hn1, hd1⟩ := h1
    obtain ⟨n2, hn2, hd2⟩ := h2
    rw [hn1, hn2]
    simp [hd1, hd2]
  · have hno : ∀ x ∈ recs, x.1 ≠ qs := fun x hx e => hex ⟨x, hx, e⟩
    cases hn : nodeAt (applyRecords recs r) qs with
    | some n =>
      have h2 := hasData_applyRecords_other recs (applyRecords recs r) qs n.Data hno
        ((hasData_iff _ _ _).mpr ⟨n, hn, rfl⟩)
      rw [hasData_iff] at h2
      obtain ⟨n2, hn2, hd2⟩ := h2
      rw [hn2]
      simp [hd2]
    | none =>
      have h1 := nodeAt_applyRecords_exists recs r qs
      have h2 := nodeAt_applyRecords_exists recs (applyRecords recs r) qs
      have hno1 : ¬ ∃ n, nodeAt (applyRecords recs r) qs = some n := by
        rw [hn]; simp
      have hno2 : ¬ ∃ n, nodeAt (applyRecords recs (applyRecords recs r)) qs = some n := by
        rw [h2]
        rintro (h | h)
        · exact hno1 h
        · exact hno1 (h1.mpr (Or.inr h))
      cases hn2 : nodeAt (applyRecords recs (applyRecords recs r)) qs with
      | none => rfl
      | some n2 => exact absurd ⟨n2, hn2⟩ hno2

/-! ## Load as the storing of the records of its lines -/

theorem lineRecord_congr (r1 r2 : Region) (h : r1.Conf = r2.Conf) :
    lineRecord r1 = lineRecord r2 := by
  funext line
  unfold lineRecord
  cases cutFirst TAB line with
  | none => rfl
  | some cd => simp only [dismantleCode_congr r1 r2 _ h]

theorem lineRecords_congr (r1 r2 : Region) (h : r1.Conf = r2.Conf) :
    lineRecords r1 = lineRecords r2 := by
  funext lines
  induction lines with
  | nil => rfl
  | cons line rest ih => simp only [lineRecords, lineRecord_congr r1 r2 h, ih]

theorem loadLine_eq_record (rgn : Region) (line : GoString) :
    loadLine rgn line =
      match lineRecord rgn line with
      | Outcome.panic => Outcome.panic
      | Outcome.ret none => Outcome.ret rgn
      | Outcome.ret (some x) => Outcome.ret (loadPieces x.2 x.1 rgn) := by
  rw [loadLine_eq]
  unfold lineRecord
  cases cutFirst TAB line with
  | none => rfl
  | some cd =>
    obtain ⟨code, data⟩ := cd
    simp only []
    cases dismantleCode rgn code with
    | panic => rfl
    | ret v =>
      obtain ⟨ps, err⟩ := v
      cases err with
      | none => rfl
      | some e => rfl

/-- The loop of `Load` panics when the decomposition of some line does, and
otherwise stores the records of the lines in order. -/
theorem loadLines_eq_records (rgn : Region) (lines : List GoString) :
    loadLines rgn lines =
      match lineRecords rgn lines with
      | Outcome.panic => Outcome.panic
      | Outcome.ret recs => Outcome.ret (applyRecords recs rgn) := by
  induction lines generalizing rgn with
  | nil => rfl
  | cons line rest ih =>
    rw [loadLines_cons, loadLine_eq_record]
    simp only [lineRecords]
    cases hl : lineRecord rgn line with
    | panic => rfl
    | ret o =>
      cases o with
      | none =>
        simp only [ih rgn]
        cases lineRecords rgn rest with
        | panic => rfl
        | ret recs => rfl
      | some x =>
        simp only [ih (loadPieces x.2 x.1 rgn)]
        rw [lineRecords_congr (loadPieces x.2 x.1 rgn) rgn (loadPieces_Conf _ _ _)]
        cases lineRecords rgn rest with
        | panic => rfl
        | ret recs => rfl

theorem lineRecord_some (rgn : Region) (line : GoString) (x : List GoString × GoString) :
    lineRecord rgn line = Outcome.ret (some x) ↔
      ∃ code, cutFirst TAB line = some (code, x.2) ∧
        dismantleCode rgn code = Outcome.ret (x.1, none) := by
  unfold lineRecord
  cases cutFirst TAB line with
  | none => simp
  | some cd =>
    obtain ⟨code, data⟩ := cd
    simp only []
    cases hd : dismantleCode rgn code with
    | panic =>
      constructor
      · intro h; simp at h
      · rintro ⟨c1, h1, h2⟩
        simp only [Option.some.injEq, Prod.mk.injEq] at h1
        obtain ⟨rfl, _⟩ := h1
        rw [hd] at h2
        simp at h2
    | ret v =>
      obtain ⟨ps, err⟩ := v
      cases err with
      | some e =>
        constructor
        · intro h; simp at h
        · rintro ⟨c1, h1, h2⟩
          simp only [Option.some.injEq, Prod.mk.injEq] at h1
          obtain ⟨rfl, _⟩ := h1
          rw [hd] at h2
          simp at h2
      | none =>
        constructor
        · intro h
          simp only [Outcome.ret.injEq, Option.some.injEq] at h
          subst h
          exact ⟨code, rfl, hd⟩
        · rintro ⟨c1, h1, h2⟩
          simp only [Option.some.injEq, Prod.mk.injEq] at h1
          obtain ⟨rfl, h12⟩ := h1
          rw [hd] at h2
          simp only [Outcome.ret.injEq, Prod.mk.injEq, and_true] at h2
          rw [h2, h12]

theorem lineRecords_append (rgn : Region) (a b : List GoString) :
    lineRecords rgn (a ++ b) =
      match lineRecords rgn a with
      | Outcome.panic => Outcome.panic
      | Outcome.ret ra =>
        match lineRecords rgn b with
        | Outcome.panic => Outcome.panic
        | Outcome.ret rb => Outcome.ret (ra ++ rb) := by
  induction a with
  | nil =>
    simp only [List.nil_append, lineRecords]
    cases lineRecords rgn b with
    | panic => rfl
    | ret rb => rfl
  | cons line rest ih =>
    rw [List.cons_append]
    simp only [lineRecords]
    rw [ih]
    cases lineRecord rgn line with
    | panic => rfl
    | ret o =>
      cases lineRecords rgn rest with
      | panic => rfl
      | ret ra =>
        cases lineRecords rgn b with
        | panic => rfl
        | ret rb => simp

/-- Every record comes from a line with a tab whose code decomposes. -/
theorem lineRecords_mem (rgn : Region) (lines : List GoString)
    (recs : List (List GoString × GoString)) (h : lineRecords rgn lines = Outcome.ret recs)
    (x : List GoString × GoString) (hx : x ∈ recs) :
    ∃ line ∈ lines, ∃ code, cutFirst TAB line = some (code, x.2) ∧
      dismantleCode rgn code = Outcome.ret (x.1, none) := by
  induction lines generalizing recs with
  | nil =>
    simp only [lineRecords, Outcome.ret.injEq] at h
    rw [← h] at hx
    cases hx
  | cons line rest ih =>
    simp only [lineRecords] at h
    cases hl : lineRecord rgn line with
    | panic => rw [hl] at h; simp at h
    | ret o =>
      rw [hl] at h
      simp only [] at h
      cases hr : lineRecords rgn rest with
      | panic => rw [hr] at h; simp at h
      | ret rs =>
        rw [hr] at h
        simp only [Outcome.ret.injEq] at h
        rw [← h] at hx
        rcases List.mem_append.mp hx with h1 | h1
        · cases o with
          | none => simp at h1
          | some y =>
            simp only [Option.toList, List.mem_singleton] at h1
            subst h1
            obtain ⟨code, hc1, hc2⟩ := (lineRecord_some rgn line x).mp hl
            exact ⟨line, List.mem_cons_self _ _, code, hc1, hc2⟩
        · obtain ⟨l, hl1, code, hc1, hc2⟩ := ih rs hr h1
          exact ⟨l, List.mem_cons_of_mem _ hl1, code, hc1, hc2⟩

/-- Every line with a tab whose code decomposes contributes its record. -/
theorem mem_lineRecords (rgn : Region) (lines : List GoString)
    (recs : List (List GoString × GoString)) (h : lineRecords rgn lines = Outcome.ret recs)
    (line code d : GoString) (ps : List GoString) (hl : line ∈ lines)
    (hcut : cutFirst TAB line = some (code, d))
    (hd : dismantleCode rgn code = Outcome.ret (ps, none)) : (ps, d) ∈ recs := by
  induction lines generalizing recs with
  | nil => cases hl
  | cons l rest ih =>
    simp only [lineRecords] at h
    cases hl1 : lineRecord rgn l with
    | panic => rw [hl1] at h; simp at h
    | ret o =>
      rw [hl1] at h
      simp only [] at h
      cases hr : lineRecords rgn rest with
      | panic => rw [hr] at h; simp at h
      | ret rs =>
        rw [hr] at h
        simp only [Outcome.ret.injEq] at h
        rw [← h]
        rcases List.mem_cons.mp hl with h1 | h1
        · subst h1
          have := (lineRecord_some rgn line (ps, d)).mpr ⟨code, hcut, hd⟩
          rw [this] at hl1
          simp only [Outcome.ret.injEq] at hl1
          rw [← hl1]
          simp
        · exact List.mem_append_right _ (ih rs hr h1)

/-- With a usable config the records of the lines exist. -/
theorem lineRecords_ret (rgn : Region) (conf : Conf) (lines : List GoString)
    (hc : rgn.Conf = some conf) (hnn : NonNeg conf) (hfit : Fits conf) :
    ∃ recs, lineRecords rgn lines = Outcome.ret recs := by
  obtain ⟨r1, h1, _⟩ := loadLines_ret rgn conf lines hc hnn hfit
  rw [loadLines_eq_records] at h1
  cases hr : lineRecords rgn lines with
  | panic => rw [hr] at h1; simp at h1
  | ret recs => exact ⟨recs, rfl⟩

theorem Find_some (rgn node : Region) (code : GoString)
    (h : Find rgn code = Outcome.ret (some node, none)) :
    ∃ ps, dismantleCode rgn code = Outcome.ret (ps, none) ∧ nodeAt rgn ps = some node := by
  unfold Find at h
  cases hd : dismantleCode rgn code with
  | panic => rw [hd] at h; simp at h
  | ret v =>
    obtain ⟨ps, err⟩ := v
    rw [hd] at h
    cases err with
    | some e => simp at h
    | none =>
      simp only [Outcome.ret.injEq] at h
      exact ⟨ps, rfl, (findLoop_some_iff ps rgn node).mp h⟩

theorem loadPieces_Sup (d : GoString) (ps : List GoString) (r : Region) :
    (loadPieces d ps r).Sup = r.Sup := by
  cases ps with
  | nil => rw [loadPieces_nil]; rfl
  | cons p ps => rw [loadPieces_cons]; rfl

theorem applyRecords_Sup (recs : List (List GoString × GoString)) (r : Region) :
    (applyRecords recs r).Sup = r.Sup := by
  induction recs generalizing r with
  | nil => rfl
  | cons x xs ih => simp only [applyRecords, ih, loadPieces_Sup]

/-- Two roots with the same config and the same payload at every path give the
same result of `Find`, observed through the payload. -/
theorem findData_congr (a b : Region) (hc : a.Conf = b.Conf)
    (h : ∀ qs, (nodeAt a qs).map Region.Data = (nodeAt b qs).map Region.Data)
    (code : GoString) : findData a code = findData b code := by
  unfold findData Find
  rw [dismantleCode_congr a b code hc]
  cases dismantleCode b code with
  | panic => rfl
  | ret v =>
    obtain ⟨ps, err⟩ := v
    cases err with
    | some e => rfl
    | none =>
      simp only [findLoop_eq_nodeAt]
      have := h ps
      cases ha : nodeAt a ps with
      | none =>
        cases hb : nodeAt b ps with
        | none => rfl
        | some nb => rw [ha, hb] at this; simp at this
      | some na =>
        cases hb : nodeAt b ps with
        | none => rw [ha, hb] at this; simp at this
        | some nb =>
          rw [ha, hb] at this
          simp only [Option.map_some', Option.some.injEq] at this
          simp [this]

/-- C19: for every tree and every successfully read list of lines, either the
first `Load` panics, or `Load` returns nil twice in succession and the second run
leaves the tree as the first left it: the same config and parent pointer at the
root, the same paths and the same payload at every path (the tree as a map, whose
keys Go does not order), hence the same result of `Find` for every code. -/
theorem C19_load_idempotent (rgn : Region) (lines : List GoString) :
    Load rgn ⟨lines, none⟩ = Outcome.panic ∨
    ∃ r1 r2, Load rgn ⟨lines, none⟩ = Outcome.ret (r1, none) ∧
      Load r1 ⟨lines, none⟩ = Outcome.ret (r2, none) ∧
      r2.Conf = r1.Conf ∧ r2.Sup = r1.Sup ∧
      (∀ qs, (nodeAt r2 qs).map Region.Data = (nodeAt r1 qs).map Region.Data) ∧
      (∀ c, findData r2 c = findData r1 c) := by
  cases hr : lineRecords rgn lines with
  | panic =>
    left
    simp only [Load, loadLines_eq_records, hr]
  | ret recs =>
    right
    have hc1 : (applyRecords recs rgn).Conf = rgn.Conf := applyRecords_Conf recs rgn
    have hpath := applyRecords_twice recs rgn
    refine ⟨applyRecords recs rgn, applyRecords recs (applyRecords recs rgn), ?_, ?_,
      applyRecords_Conf _ _, applyRecords_Sup _ _, hpath,
      findData_congr _ _ (applyRecords_Conf _ _) hpath⟩
    · simp only [Load, loadLines_eq_records, hr]
    · simp only [Load, loadLines_eq_records, lineRecords_congr _ rgn hc1, hr]

/-! ## What Load leaves in place and what it makes findable -/

/-- C14, counterexample: with the positive widths `[1, 2, 2^63 - 1]` and the
tree `treeLate`, `Find("1")` succeeds before `Load`, yet `Load` of the single
line `"101<TAB>X"` panics in `dismantleCode` and returns nothing after which
`Find("1")` could succeed. -/
theorem C14_counterexample :
    (∃ node, Find treeLate [49] = Outcome.ret (some node, none)) ∧
      Load treeLate ⟨[[49, 48, 49, 9, 88]], none⟩ = Outcome.panic :=
  ⟨⟨_, rfl⟩, rfl⟩

/-- C14 (amended): for every tree whose root config is present, has non-negative
widths and a total width representable as an `int`, every stream, failing or
not, and every code `c` for which `Find(c)` succeeds before `Load`: `Load`
returns the stream's error, `Find(c)` succeeds afterwards, and the `Data` of the
node is unchanged unless a line of the stream has the code `c`. -/
theorem C14_load_keeps_nodes (rgn : Region) (conf : Conf) (s : Scanner) (c : GoString)
    (node : Region)
    (hc : rgn.Conf = some conf) (hnn : NonNeg conf) (hfit : Fits conf)
    (hfind : Find rgn c = Outcome.ret (some node, none)) :
    ∃ rgn1 node1, Load rgn s = Outcome.ret (rgn1, s.Err) ∧
      Find rgn1 c = Outcome.ret (some node1, none) ∧
      ((∀ l ∈ s.Lines, ∀ d, cutFirst TAB l ≠ some (c, d)) → node1.Data = node.Data) := by
  obtain ⟨ps, hd, hn⟩ := Find_some rgn node c hfind
  obtain ⟨recs, hr⟩ := lineRecords_ret rgn conf s.Lines hc hnn hfit
  obtain ⟨n1, hn1⟩ := (nodeAt_applyRecords_exists recs rgn ps).mpr (Or.inl ⟨node, hn⟩)
  have hd1 : dismantleCode (applyRecords recs rgn) c = Outcome.ret (ps, none) := by
    rw [dismantleCode_congr _ rgn c (applyRecords_Conf recs rgn)]
    exact hd
  refine ⟨applyRecords recs rgn, n1, ?_, ?_, ?_⟩
  · simp only [Load, loadLines_eq_records, hr]
  · rw [Find_eq_findLoop _ c ps hd1, (findLoop_some_iff ps _ n1).mpr hn1]
  · intro hno
    have hother : ∀ x ∈ recs, x.1 ≠ ps := by
      intro x hx e
      obtain ⟨line, hl, code, hcut, hdc⟩ := lineRecords_mem rgn s.Lines recs hr x hx
      have h1 := dismantleCode_flatten rgn code x.1 hdc
      have h2 := dismantleCode_flatten rgn c ps hd
      apply hno line hl x.2
      rw [hcut, ← h1, e, h2]
    have := hasData_applyRecords_other recs rgn ps node.Data hother
      ((hasData_iff _ _ _).mpr ⟨node, hn, rfl⟩)
    obtain ⟨n2, hn2, hd2⟩ := (hasData_iff _ _ _).mp this
    rw [hn1] at hn2
    simp only [Option.some.injEq] at hn2
    rw [hn2]
    exact hd2

/-- C14, witness: the populated tree `treeOne`, the code `"1"` and a stream that
yields `"101<TAB>B"` and then fails. -/
theorem C14_load_keeps_nodes_witness :
    ∃ rgn1 node1,
      Load treeOne ⟨[[49, 48, 49, 9, 66]], some (GoError.stream 7)⟩ =
        Outcome.ret (rgn1, (⟨[[49, 48, 49, 9, 66]], some (GoError.stream 7)⟩ : Scanner).Err) ∧
      Find rgn1 [49] = Outcome.ret (some node1, none) ∧
      ((∀ l ∈ (⟨[[49, 48, 49, 9, 66]], some (GoError.stream 7)⟩ : Scanner).Lines,
          ∀ d, cutFirst TAB l ≠ some ([49], d)) →
        node1.Data = (Region.mk [65] none SupPtr.parent []).Data) :=
  C14_load_keeps_nodes treeOne rootRegionConf ⟨[[49, 48, 49, 9, 66]], some (GoError.stream 7)⟩
    [49] (Region.mk [65] none SupPtr.parent []) rfl (by decide) (by decide) rfl

theorem headSum_lt_of_lt {conf : Conf} (hpos : Positive conf) (k1 k2 : Nat) (h : k1 < k2)
    (hk : k2 ≤ conf.length) : headSum conf k1 < headSum conf k2 := by
  induction conf generalizing k1 k2 with
  | nil =>
    simp only [List.length_nil, Nat.le_zero] at hk
    omega
  | cons e rest ih =>
    have he : 0 < e.Width := hpos e (List.mem_cons_self _ _)
    obtain ⟨j2, rfl⟩ : ∃ j, k2 = j + 1 := ⟨k2 - 1, by omega⟩
    simp only [List.length_cons, Nat.add_le_add_iff_right] at hk
    rw [headSum_cons_succ]
    cases k1 with
    | zero =>
      rw [headSum_zero]
      have := headSum_nonneg (positive_nonNeg (positive_tail hpos)) j2
      omega
    | succ j1 =>
      rw [headSum_cons_succ]
      have := ih (positive_tail hpos) j1 j2 (by omega) hk
      omega

/-- The pieces of a boundary-valid code start the pieces of every boundary-valid
code that it starts. -/
theorem cutBy_take_append (conf : Conf) (hpos : Positive conf) (c rest : GoString)
    (k1 k2 : Nat) (hk1 : k1 ≤ conf.length)
    (h1 : (c.length : Int) = headSum conf k1)
    (h2 : ((c ++ rest).length : Int) = headSum conf k2) :
    ∃ post, cutBy ((conf.take k2).map (fun e => e.Width)) (c ++ rest) =
      cutBy ((conf.take k1).map (fun e => e.Width)) c ++ post := by
  have hle : k1 ≤ k2 := by
    by_contra hlt
    have := headSum_lt_of_lt hpos k2 k1 (by omega) hk1
    simp only [List.length_append, Nat.cast_add] at h2
    omega
  have hsplit : conf.take k2 = conf.take k1 ++ (conf.take k2).drop k1 := by
    have := List.take_append_drop k1 (conf.take k2)
    rw [List.take_take, Nat.min_eq_left hle] at this
    exact this.symm
  refine ⟨cutBy (((conf.take k2).drop k1).map (fun e => e.Width)) rest, ?_⟩
  rw [hsplit, List.map_append, cutBy_append]
  · rw [← hsplit]
  · intro w hw
    obtain ⟨x, hx, rfl⟩ := List.mem_map.mp hw
    exact le_of_lt (hpos x (List.mem_of_mem_take hx))
  · exact h1.symm

theorem nodeAt_fresh_none (data : GoString) (conf : Option Conf) (sup : SupPtr)
    (ps : List GoString) (h : ps ≠ []) : nodeAt (NewRegion data conf sup none) ps = none := by
  cases ps with
  | nil => exact absurd rfl h
  | cons p ps => simp [NewRegion, nodeAt, mapGet]

/-- The paths of a tree loaded into a fresh root: `Find` reaches a node for a
boundary-valid code exactly when the code starts the code of a loaded record. -/
theorem find_fresh_iff (conf : Conf) (data : GoString) (sup : SupPtr)
    (lines : List GoString) (recs : List (List GoString × GoString)) (c : GoString)
    (hpos : Positive conf) (hfit : Fits conf)
    (hr : lineRecords (NewRegion data (some conf) sup none) lines = Outcome.ret recs) :
    (∃ node, Find (applyRecords recs (NewRegion data (some conf) sup none)) c =
        Outcome.ret (some node, none)) ↔
      (BoundaryValid conf c ∧ ∃ line ∈ lines, ∃ c1 d, cutFirst TAB line = some (c1, d) ∧
        BoundaryValid conf c1 ∧ ∃ rest, c1 = c ++ rest) := by
  have hnn := positive_nonNeg hpos
  have hc0 : (NewRegion data (some conf) sup none).Conf = some conf := rfl
  have hc1 : (applyRecords recs (NewRegion data (some conf) sup none)).Conf = some conf := by
    rw [applyRecords_Conf]; rfl
  constructor
  · rintro ⟨node, hf⟩
    obtain ⟨ps, hd, hn⟩ := Find_some _ node c hf
    have hbv : BoundaryValid conf c := by
      rcases dismantleCode_cases _ conf c hc1 hnn hfit with h | ⟨_, _, _, _, h⟩
      · rw [h] at hd; simp at hd
      · exact h
    refine ⟨hbv, ?_⟩
    have hne := dismantleCode_ne_nil _ c ps hd
    rcases (nodeAt_applyRecords_exists recs _ ps).mp ⟨node, hn⟩ with ⟨n, h0⟩ | ⟨x, hx, post, hp⟩
    · rw [nodeAt_fresh_none data (some conf) sup ps hne] at h0
      simp at h0
    · obtain ⟨line, hl, code, hcut, hdc⟩ := lineRecords_mem _ lines recs hr x hx
      refine ⟨line, hl, code, x.2, hcut, ?_, post.flatten, ?_⟩
      · rcases dismantleCode_cases _ conf code hc0 hnn hfit with h | ⟨_, _, _, _, h⟩
        · rw [h] at hdc; simp at hdc
        · exact h
      · rw [← dismantleCode_flatten _ code x.1 hdc, hp, List.flatten_append,
          dismantleCode_flatten _ c ps hd]
  · rintro ⟨⟨k1, hk11, hk12, hlen1⟩, line, hl, c1, d, hcut, ⟨k2, hk21, hk22, hlen2⟩, rest, hrest⟩
    subst hrest
    have hd2 := dismantleCode_ok _ conf (c ++ rest) k2 hc0 hpos hfit hk21 hk22 hlen2
    have hmem := mem_lineRecords _ lines recs hr line (c ++ rest) d _ hl hcut hd2
    obtain ⟨post, hpost⟩ := cutBy_take_append conf hpos c rest k1 k2 hk12 hlen1 hlen2
    obtain ⟨n, hn⟩ := (nodeAt_applyRecords_exists recs
      (NewRegion data (some conf) sup none)
      (cutBy ((conf.take k1).map (fun e => e.Width)) c)).mpr
      (Or.inr ⟨_, hmem, post, hpost⟩)
    refine ⟨n, ?_⟩
    rw [Find_eq_findLoop _ c _ (dismantleCode_ok _ conf c k1 hc1 hpos hfit hk11 hk12 hlen1)]
    rw [(findLoop_some_iff _ _ n).mpr hn]

/-- C17, counterexample: with the positive widths `[1, 2, 2^63 - 1]`, after
`Load` of the single line `"1<TAB>A"` into a fresh root, the code `"101"` is
boundary-valid and starts the code of no line, yet `Find("101")` does not fail
with `ErrorRegionNotFound`: it panics on the wrapped third sum. -/
theorem C17_counterexample :
    Positive lateOverflowConf ∧ BoundaryValid lateOverflowConf [49, 48, 49] ∧
      cutFirst TAB [49, 9, 65] = some ([49], [65]) ∧
      (¬ ∃ rest, ([49] : GoString) = [49, 48, 49] ++ rest) ∧
      ∃ rgn1, Load (NewRegion [] (some lateOverflowConf) SupPtr.nil none)
          ⟨[[49, 9, 65]], none⟩ = Outcome.ret (rgn1, none) ∧
        Find rgn1 [49, 48, 49] = Outcome.panic :=
  ⟨by decide, by decide, by decide, by rintro ⟨rest, h⟩; simp at h, _, rfl, rfl⟩

/-- C17 (amended): after `Load` of a successfully read list of lines into a
fresh root whose config has positive widths and a total width representable as
an `int`, `Find(c)` succeeds exactly when `c` is boundary-valid and starts (or
equals) the code of at least one line with a tab whose code is boundary-valid;
every other boundary-valid code fails with `ErrorRegionNotFound`. -/
theorem C17_findable (conf : Conf) (data : GoString) (sup : SupPtr)
    (lines : List GoString) (c : GoString) (hpos : Positive conf) (hfit : Fits conf) :
    ∃ rgn1, Load (NewRegion data (some conf) sup none) ⟨lines, none⟩ =
        Outcome.ret (rgn1, none) ∧
      ((∃ node, Find rgn1 c = Outcome.ret (some node, none)) ↔
        (BoundaryValid conf c ∧ ∃ line ∈ lines, ∃ c1 d, cutFirst TAB line = some (c1, d) ∧
          BoundaryValid conf c1 ∧ ∃ rest, c1 = c ++ rest)) ∧
      (BoundaryValid conf c →
        (¬ ∃ line ∈ lines, ∃ c1 d, cutFirst TAB line = some (c1, d) ∧
          BoundaryValid conf c1 ∧ ∃ rest, c1 = c ++ rest) →
        Find rgn1 c = Outcome.ret (none, some ErrorRegionNotFound)) := by
  obtain ⟨recs, hr⟩ := lineRecords_ret (NewRegion data (some conf) sup none) conf lines rfl
    (positive_nonNeg hpos) hfit
  have hiff := find_fresh_iff conf data sup lines recs c hpos hfit hr
  refine ⟨applyRecords recs (NewRegion data (some conf) sup none), ?_, hiff, ?_⟩
  · simp only [Load, loadLines_eq_records, hr]
  · rintro ⟨k, hk1, hk2, hlen⟩ hno
    have hc1 : (applyRecords recs (NewRegion data (some conf) sup none)).Conf = some conf := by
      rw [applyRecords_Conf]; rfl
    have hf := Find_eq_findLoop _ c _ (dismantleCode_ok _ conf c k hc1 hpos hfit hk1 hk2 hlen)
    rw [findLoop_eq_nodeAt] at hf
    cases hn : nodeAt (applyRecords recs (NewRegion data (some conf) sup none))
        (cutBy ((conf.take k).map (fun e => e.Width)) c) with
    | none =>
      rw [hn] at hf
      exact hf
    | some n =>
      rw [hn] at hf
      exact absurd (hiff.mp ⟨n, hf⟩).2 hno

/-- C17, witness: the test root and the lines `"101<TAB>B"` and `"2<TAB>C"`, with
the code `"1"`. -/
theorem C17_findable_witness :
    ∃ rgn1, Load (NewRegion rootRegionData (some rootRegionConf) SupPtr.nil none)
        ⟨[[49, 48, 49, 9, 66], [50, 9, 67]], none⟩ = Outcome.ret (rgn1, none) ∧
      ((∃ node, Find rgn1 [49] = Outcome.ret (some node, none)) ↔
        (BoundaryValid rootRegionConf [49] ∧
          ∃ line ∈ [[49, 48, 49, 9, 66], [50, 9, 67]], ∃ c1 d,
            cutFirst TAB line = some (c1, d) ∧
            BoundaryValid rootRegionConf c1 ∧ ∃ rest, c1 = [49] ++ rest)) ∧
      (BoundaryValid rootRegionConf [49] →
        (¬ ∃ line ∈ [[49, 48, 49, 9, 66], [50, 9, 67]], ∃ c1 d,
          cutFirst TAB line = some (c1, d) ∧
          BoundaryValid rootRegionConf c1 ∧ ∃ rest, c1 = [49] ++ rest) →
        Find rgn1 [49] = Outcome.ret (none, some ErrorRegionNotFound)) :=
  C17_findable rootRegionConf rootRegionData SupPtr.nil [[49, 48, 49, 9, 66], [50, 9, 67]] [49]
    (by decide) (by decide)

/-- C18, counterexample: with the positive widths `[1, 2, 2^63 - 1]`, the list
holding the single line `"101<TAB>X"`, a well-formed record, and the
boundary-valid code `"1"`, which starts `"101"` and is the code of no line:
`Load` into a fresh root panics, so `Find("1")` does not succeed. -/
theorem C18_counterexample :
    Positive lateOverflowConf ∧ BoundaryValid lateOverflowConf [49] ∧
      cutFirst TAB [49, 48, 49, 9, 88] = some ([49] ++ [48, 49], [88]) ∧
      BoundaryValid lateOverflowConf ([49] ++ [48, 49]) ∧
      Load (NewRegion [] (some lateOverflowConf) SupPtr.nil none)
        ⟨[[49, 48, 49, 9, 88]], none⟩ = Outcome.panic :=
  ⟨by decide, by decide, by decide, by decide, rfl⟩

/-- C18 (amended): after `Load` of a successfully read list of lines into a
fresh root whose config has positive widths and a total width representable as
an `int`, for every boundary-valid code `c` that is the code of no line of the
list (so that it starts the codes below properly): if `line` is the first line
with a tab and a boundary-valid code that `c` starts, then `Find(c)` succeeds and
the `Data` of the node is the data of `line`. -/
theorem C18_ancestor_payload (conf : Conf) (data : GoString) (sup : SupPtr)
    (before after : List GoString) (line c rest d : GoString)
    (hpos : Positive conf) (hfit : Fits conf)
    (hbv : BoundaryValid conf c)
    (hline : cutFirst TAB line = some (c ++ rest, d))
    (hbv1 : BoundaryValid conf (c ++ rest))
    (hnot : ∀ l ∈ before ++ line :: after, ∀ d1, cutFirst TAB l ≠ some (c, d1))
    (hfirst : ∀ l ∈ before, ∀ c1 d1 rest1, cutFirst TAB l = some (c1, d1) →
      BoundaryValid conf c1 → c1 ≠ c ++ rest1) :
    ∃ rgn1 node, Load (NewRegion data (some conf) sup none) ⟨before ++ line :: after, none⟩ =
        Outcome.ret (rgn1, none) ∧
      Find rgn1 c = Outcome.ret (some node, none) ∧ node.Data = d := by
  have hnn := positive_nonNeg hpos
  have hc0 : (NewRegion data (some conf) sup none).Conf = some conf := rfl
  obtain ⟨k1, hk11, hk12, hlen1⟩ := hbv
  obtain ⟨k2, hk21, hk22, hlen2⟩ := hbv1
  obtain ⟨rb, hrb⟩ := lineRecords_ret (NewRegion data (some conf) sup none) conf before hc0
    hnn hfit
  obtain ⟨ra, hra⟩ := lineRecords_ret (NewRegion data (some conf) sup none) conf after hc0
    hnn hfit
  have hd1 := dismantleCode_ok (NewRegion data (some conf) sup none) conf c k1 hc0 hpos hfit
    hk11 hk12 hlen1
  have hd2 := dismantleCode_ok (NewRegion data (some conf) sup none) conf (c ++ rest) k2 hc0
    hpos hfit hk21 hk22 hlen2
  obtain ⟨post, hpost⟩ := cutBy_take_append conf hpos c rest k1 k2 hk12 hlen1 hlen2
  have hrec : lineRecord (NewRegion data (some conf) sup none) line =
      Outcome.ret (some (cutBy ((conf.take k2).map (fun e => e.Width)) (c ++ rest), d)) :=
    (lineRecord_some _ line _).mpr ⟨c ++ rest, hline, hd2⟩
  have hall : lineRecords (NewRegion data (some conf) sup none) (before ++ line :: after) =
      Outcome.ret (rb ++ (cutBy ((conf.take k2).map (fun e => e.Width)) (c ++ rest), d) :: ra) := by
    rw [lineRecords_append, hrb]
    simp only [lineRecords, hrec, hra, Option.toList, List.singleton_append]
  have hne := dismantleCode_ne_nil _ c _ hd1
  -- before the line, the node of `c` does not exist
  have hmiss : nodeAt (applyRecords rb (NewRegion data (some conf) sup none))
      (cutBy ((conf.take k1).map (fun e => e.Width)) c) = none := by
    cases hn : nodeAt (applyRecords rb (NewRegion data (some conf) sup none))
        (cutBy ((conf.take k1).map (fun e => e.Width)) c) with
    | none => rfl
    | some n =>
      exfalso
      rcases (nodeAt_applyRecords_exists rb _ _).mp ⟨n, hn⟩ with ⟨n0, h0⟩ | ⟨x, hx, p1, hp1⟩
      · rw [nodeAt_fresh_none data (some conf) sup _ hne] at h0
        simp at h0
      · obtain ⟨l, hl, code, hcut, hdc⟩ := lineRecords_mem _ before rb hrb x hx
        have hbvc : BoundaryValid conf code := by
          rcases dismantleCode_cases _ conf code hc0 hnn hfit with h | ⟨_, _, _, _, h⟩
          · rw [h] at hdc; simp at hdc
          · exact h
        apply hfirst l hl code x.2 p1.flatten hcut hbvc
        rw [← dismantleCode_flatten _ code x.1 hdc, hp1, List.flatten_append,
          dismantleCode_flatten _ c _ hd1]
  -- the line creates it with its data
  have hcreate := nodeAt_loadPieces_created d
    (cutBy ((conf.take k1).map (fun e => e.Width)) c) post
    (applyRecords rb (NewRegion data (some conf) sup none)) hmiss
  rw [← hpost] at hcreate
  -- the later lines do not touch it
  have hother : ∀ x ∈ ra, x.1 ≠ cutBy ((conf.take k1).map (fun e => e.Width)) c := by
    intro x hx e
    obtain ⟨l, hl, code, hcut, hdc⟩ := lineRecords_mem _ after ra hra x hx
    apply hnot l (List.mem_append_right _ (List.mem_cons_of_mem _ hl)) x.2
    rw [hcut, ← dismantleCode_flatten _ code x.1 hdc, e, dismantleCode_flatten _ c _ hd1]
  have hfinal := hasData_applyRecords_other ra _ _ d hother
    ((hasData_iff _ _ _).mpr hcreate)
  obtain ⟨n, hn, hdn⟩ := (hasData_iff _ _ _).mp hfinal
  refine ⟨applyRecords
    (rb ++ (cutBy ((conf.take k2).map (fun e => e.Width)) (c ++ rest), d) :: ra)
    (NewRegion data (some conf) sup none), n, ?_, ?_, hdn⟩
  · simp only [Load, loadLines_eq_records, hall]
  · have hc1 : (applyRecords (rb ++
        (cutBy ((conf.take k2).map (fun e => e.Width)) (c ++ rest), d) :: ra)
        (NewRegion data (some conf) sup none)).Conf = some conf := by
      rw [applyRecords_Conf]; rfl
    rw [Find_eq_findLoop _ c _ (dismantleCode_ok _ conf c k1 hc1 hpos hfit hk11 hk12 hlen1)]
    rw [applyRecords_append]
    simp only [applyRecords]
    rw [(findLoop_some_iff _ _ n).mpr hn]

/-- C18, witness: the test root and the lines `"2<TAB>C"`, `"101<TAB>X"`,
`"10102<TAB>Y"`: the node of `"1"` is created by `"101<TAB>X"`. -/
theorem C18_ancestor_payload_witness :
    ∃ rgn1 node,
      Load (NewRegion rootRegionData (some rootRegionConf) SupPtr.nil none)
        ⟨[[50, 9, 67]] ++ [49, 48, 49, 9, 88] :: [[49, 48, 49, 48, 50, 9, 89]], none⟩ =
        Outcome.ret (rgn1, none) ∧
      Find rgn1 [49] = Outcome.ret (some node, none) ∧ node.Data = [88] :=
  C18_ancestor_payload rootRegionConf rootRegionData SupPtr.nil [[50, 9, 67]]
    [[49, 48, 49, 48, 50, 9, 89]] [49, 48, 49, 9, 88] [49] [48, 49] [88]
    (by decide) (by decide) (by decide) (by decide) (by decide)
    (by
      intro l hl d1 h
      simp only [List.singleton_append, List.mem_cons, List.mem_singleton, List.not_mem_nil,
        or_false] at hl
      rcases hl with rfl | rfl | rfl
      · have e : cutFirst TAB [50, 9, 67] = some ([50], [67]) := by decide
        rw [e] at h
        simp only [Option.some.injEq, Prod.mk.injEq] at h
        exact absurd h.1 (by decide)
      · have e : cutFirst TAB [49, 48, 49, 9, 88] = some ([49, 48, 49], [88]) := by decide
        rw [e] at h
        simp only [Option.some.injEq, Prod.mk.injEq] at h
        exact absurd h.1 (by decide)
      · have e : cutFirst TAB [49, 48, 49, 48, 50, 9, 89] =
            some ([49, 48, 49, 48, 50], [89]) := by decide
        rw [e] at h
        simp only [Option.some.injEq, Prod.mk.injEq] at h
        exact absurd h.1 (by decide))
    (by
      intro l hl c1 d1 rest1 hcut _ h
      simp only [List.mem_singleton] at hl
      subst hl
      have e : cutFirst TAB [50, 9, 67] = some ([50], [67]) := by decide
      rw [e] at hcut
      simp only [Option.some.injEq, Prod.mk.injEq] at hcut
      rw [← hcut.1] at h
      simp only [List.cons_append, List.cons.injEq] at h
      exact absurd h.1 (by decide))

/-! ## Lemmas on the scanner -/

theorem scanLines_noLF (pre rest cur : GoString) (h1 : LF ∉ pre)
    (h2 : cur.length + pre.length < MaxScanTokenSize) :
    scanLines (pre ++ rest) cur = scanLines rest (cur ++ pre) := by
  induction pre generalizing cur with
  | nil => simp
  | cons b pre ih =>
    have hb : b ≠ LF := fun e => h1 (by rw [e]; exact List.mem_cons_self _ _)
    have hp : LF ∉ pre := fun e => h1 (List.mem_cons_of_mem _ e)
    simp only [List.length_cons] at h2
    rw [List.cons_append]
    simp only [scanLines, hb, if_false]
    have hl1 : (cur ++ [b]).length = cur.length + 1 := by simp
    rw [if_neg (by omega), ih (cur ++ [b]) hp (by rw [hl1]; omega)]
    simp

theorem scanLines_too_long (pre rest cur : GoString) (h1 : LF ∉ pre)
    (h2 : cur.length < MaxScanTokenSize) (h3 : MaxScanTokenSize ≤ cur.length + pre.length) :
    scanLines (pre ++ rest) cur = ([], some ErrTooLong) := by
  induction pre generalizing cur with
  | nil => simp only [List.length_nil] at h3; omega
  | cons b pre ih =>
    have hb : b ≠ LF := fun e => h1 (by rw [e]; exact List.mem_cons_self _ _)
    have hp : LF ∉ pre := fun e => h1 (List.mem_cons_of_mem _ e)
    simp only [List.length_cons] at h3
    rw [List.cons_append]
    simp only [scanLines, hb, if_false]
    by_cases hfull : MaxScanTokenSize ≤ cur.length + 1
    · rw [if_pos hfull]
    · rw [if_neg hfull]
      have hl1 : (cur ++ [b]).length = cur.length + 1 := by simp
      exact ih (cur ++ [b]) hp (by rw [hl1]; omega) (by rw [hl1]; omega)

/-- The scanner has no error of its own but `ErrTooLong`. -/
theorem scanLines_err (content cur : GoString) :
    (scanLines content cur).2 = none ∨ (scanLines content cur).2 = some ErrTooLong := by
  induction content generalizing cur with
  | nil => left; rfl
  | cons b rest ih =>
    simp only [scanLines]
    split
    · exact ih []
    · split
      · right; rfl
      · exact ih _

/-- A run of bytes without line feed that lies in `cur ++ LF :: rest` lies in
`cur` or in `rest`. -/
theorem run_split (a chunk b cur rest : GoString) (h : a ++ chunk ++ b = cur ++ LF :: rest)
    (hc : LF ∉ chunk) :
    chunk.length ≤ cur.length ∨ ∃ a1, rest = a1 ++ chunk ++ b := by
  rw [List.append_eq_append_iff] at h
  rcases h with ⟨c, h1, h2⟩ | ⟨c, h1, h2⟩
  · left
    rw [h1]
    simp only [List.length_append]
    omega
  · cases c with
    | nil =>
      left
      simp only [List.append_nil] at h1
      rw [← h1]
      simp only [List.length_append]
      omega
    | cons x c1 =>
      simp only [List.cons_append, List.cons.injEq] at h2
      obtain ⟨hx, h2⟩ := h2
      subst hx
      rw [List.append_eq_append_iff] at h1
      rcases h1 with ⟨d, h3, h4⟩ | ⟨d, h3, h4⟩
      · exfalso
        apply hc
        rw [h4]
        simp
      · cases d with
        | nil =>
          simp only [List.nil_append] at h4
          exfalso
          apply hc
          rw [← h4]
          exact List.mem_cons_self _ _
        | cons y d1 =>
          simp only [List.cons_append, List.cons.injEq] at h4
          right
          refine ⟨d1, ?_⟩
          rw [h2, h4.2]

theorem run_length_le (s a chunk b : GoString) (h : s = a ++ chunk ++ b) :
    chunk.length ≤ s.length := by
  rw [h]
  simp only [List.length_append]
  omega

/-- The scan stops with `ErrTooLong` exactly when the bytes buffered and the
bytes to come hold a line of 64 KiB or more. -/
theorem scanLines_err_iff (content cur : GoString) (hc : LF ∉ cur)
    (hl : cur.length < MaxScanTokenSize) :
    (scanLines content cur).2 = some ErrTooLong ↔ LongRun (cur ++ content) := by
  induction content generalizing cur with
  | nil =>
    constructor
    · intro h
      simp [scanLines] at h
    · rintro ⟨a, chunk, b, he, _, hlen⟩
      have := run_length_le _ a chunk b he
      simp only [List.append_nil] at this
      omega
  | cons x rest ih =>
    simp only [scanLines]
    by_cases hx : x = LF
    · subst hx
      simp only [if_true]
      rw [ih [] (by simp) (by unfold MaxScanTokenSize; simp)]
      simp only [List.nil_append]
      constructor
      · rintro ⟨a, chunk, b, he, hno, hlen⟩
        exact ⟨cur ++ LF :: a, chunk, b, by rw [he]; simp, hno, hlen⟩
      · rintro ⟨a, chunk, b, he, hno, hlen⟩
        rcases run_split a chunk b cur rest he.symm hno with h1 | ⟨a1, h1⟩
        · omega
        · exact ⟨a1, chunk, b, h1, hno, hlen⟩
    · rw [if_neg hx]
      by_cases hfull : MaxScanTokenSize ≤ cur.length + 1
      · rw [if_pos hfull]
        simp only [true_iff]
        have hl1 : (cur ++ [x]).length = cur.length + 1 := by simp
        refine ⟨[], cur ++ [x], rest, by simp, ?_, by rw [hl1]; exact hfull⟩
        intro hm
        rcases List.mem_append.mp hm with h1 | h1
        · exact hc h1
        · simp only [List.mem_singleton] at h1
          exact hx h1.symm
      · rw [if_neg hfull]
        rw [ih (cur ++ [x])
          (by
            intro hm
            rcases List.mem_append.mp hm with h1 | h1
            · exact hc h1
            · simp only [List.mem_singleton] at h1
              exact hx h1.symm)
          (by simp only [List.length_append, List.length_singleton]; omega)]
        simp only [List.append_assoc, List.singleton_append]

theorem dropCR_concat_CR (l : GoString) : dropCR (l ++ [CR]) = l := by
  unfold dropCR
  rw [List.getLast?_concat]
  simp

theorem dropCR_of_last (l : GoString) (h : ∀ b, l.getLast? = some b → b ≠ CR) :
    dropCR l = l := by
  unfold dropCR
  cases hl : l.getLast? with
  | none => rfl
  | some b => simp only [h b hl, if_false]

/-- A stream that holds one line shorter than 64 KiB, ended by nothing, by a line
feed or by carriage return and line feed, is scanned as that line. -/
theorem newScanner_single (line eol : GoString) (fail : Option GoError)
    (hne : line ≠ []) (hlf : LF ∉ line) (hcr : ∀ b, line.getLast? = some b → b ≠ CR)
    (heol : eol = [] ∨ eol = [LF] ∨ eol = [CR, LF])
    (hlen : (line ++ eol).length < MaxScanTokenSize) :
    NewScanner ⟨line ++ eol, fail⟩ = ⟨[line], fail⟩ := by
  have hscan : scanLines (line ++ eol) [] = ([line], none) := by
    rcases heol with rfl | rfl | rfl
    · rw [scanLines_noLF line [] [] hlf (by simpa using hlen)]
      simp [scanLines, hne, dropCR_of_last line hcr]
    · simp only [List.length_append, List.length_singleton] at hlen
      rw [scanLines_noLF line [LF] [] hlf (by simp only [List.length_nil]; omega)]
      simp [scanLines, dropCR_of_last line hcr]
    · simp only [List.length_append, List.length_cons, List.length_nil] at hlen
      have e : line ++ [CR, LF] = (line ++ [CR]) ++ [LF] := by simp
      rw [e, scanLines_noLF (line ++ [CR]) [LF] []
        (by
          intro hm
          rcases List.mem_append.mp hm with h1 | h1
          · exact hlf h1
          · simp only [List.mem_singleton] at h1
            exact absurd h1 (by decide))
        (by simp only [List.length_nil, List.length_append, List.length_singleton]; omega)]
      simp [scanLines, dropCR_concat_CR]
  simp only [NewScanner, hscan]

/-- A stream that starts with 64 KiB without line feed is scanned as no line and
`ErrTooLong`, whatever the reader's own error. -/
theorem newScanner_too_long (content : GoString) (fail : Option GoError) (hlf : LF ∉ content)
    (hlen : MaxScanTokenSize ≤ content.length) :
    NewScanner ⟨content, fail⟩ = ⟨[], some ErrTooLong⟩ := by
  have h := scanLines_too_long content [] [] hlf (by unfold MaxScanTokenSize; simp)
    (by simpa using hlen)
  simp only [List.append_nil] at h
  simp only [NewScanner, h]

theorem last_of_record (code data : GoString) (hcr : CR ∉ data) :
    ∀ b, (code ++ TAB :: data).getLast? = some b → b ≠ CR := by
  intro b hb e
  subst e
  rw [List.getLast?_append, List.getLast?_eq_getLast (TAB :: data) (by simp)] at hb
  simp only [Option.or_some, Option.some.injEq] at hb
  have hm : (TAB :: data).getLast (by simp) ∈ TAB :: data := List.getLast_mem _
  rw [hb] at hm
  rcases List.mem_cons.mp hm with h1 | h1
  · exact absurd h1 (by decide)
  · exact hcr h1

/-! ## Load over a reader -/

theorem longLine_noLF : LF ∉ longLine := by
  intro h
  exact absurd (List.mem_replicate.mp h).2 (by decide)

theorem longData_noLF : LF ∉ longData := by
  intro h
  exact absurd (List.mem_replicate.mp h).2 (by decide)

theorem longData_noCR : CR ∉ longData := by
  intro h
  exact absurd (List.mem_replicate.mp h).2 (by decide)

theorem longData_length : longData.length = 65536 := List.length_replicate _ _

theorem longRecord_noLF : LF ∉ [49] ++ TAB :: longData := by
  intro h
  rcases List.mem_append.mp h with h1 | h1
  · simp only [List.mem_singleton] at h1
    exact absurd h1 (by decide)
  · rcases List.mem_cons.mp h1 with h2 | h2
    · exact absurd h2 (by decide)
    · exact longData_noLF h2

theorem longRecord_length : MaxScanTokenSize ≤ ([49] ++ TAB :: longData).length := by
  have h : (TAB :: longData).length = 65536 + 1 := by
    rw [List.length_cons, longData_length]
  rw [List.length_append, h]
  unfold MaxScanTokenSize
  omega

theorem longRecord_scan :
    NewScanner ⟨[49] ++ TAB :: longData, none⟩ = ⟨[], some ErrTooLong⟩ :=
  newScanner_too_long _ none longRecord_noLF longRecord_length

/-- C7, counterexample: four inputs on which the claim fails.  With the width
`[0]` the empty code is boundary-valid and the stream `"<TAB>X"` is skipped; with
the positive widths `[1, 2^63 - 1]` the stream `"1<TAB>X"` makes `Load` panic; on
the test root the record `"1<TAB>X...X"` with 65536 bytes of data, none of them a
line break, is longer than the scanner's buffer, so `Load` returns
`bufio.ErrTooLong` and stores nothing; and the boundary-valid code `"\n"`, which
has no tab, is cut by the scanner, so that nothing is stored for it. -/
theorem C7_counterexample :
    (BoundaryValid zeroConf [] ∧ TAB ∉ ([] : GoString) ∧
      Load (NewRegion [] (some zeroConf) SupPtr.nil none)
          (NewScanner ⟨[] ++ TAB :: [88], none⟩) =
        Outcome.ret (NewRegion [] (some zeroConf) SupPtr.nil none, none) ∧
      Find (NewRegion [] (some zeroConf) SupPtr.nil none) [] =
        Outcome.ret (none, some ErrorRegionCodeIncorrect)) ∧
    (BoundaryValid overflowConf [49] ∧ TAB ∉ ([49] : GoString) ∧
      Load (NewRegion [] (some overflowConf) SupPtr.nil none)
        (NewScanner ⟨[49] ++ TAB :: [88], none⟩) = Outcome.panic) ∧
    (BoundaryValid rootRegionConf [49] ∧ TAB ∉ ([49] : GoString) ∧
      LF ∉ longData ∧ CR ∉ longData ∧
      Load newRegion (NewScanner ⟨[49] ++ TAB :: longData, none⟩) =
        Outcome.ret (newRegion, some ErrTooLong) ∧
      Find newRegion [49] = Outcome.ret (none, some ErrorRegionNotFound)) ∧
    (BoundaryValid rootRegionConf [10] ∧ TAB ∉ ([10] : GoString) ∧
      ∃ rgn1, Load newRegion (NewScanner ⟨[10] ++ TAB :: [88], none⟩) =
          Outcome.ret (rgn1, none) ∧
        Find rgn1 [10] = Outcome.ret (none, some ErrorRegionNotFound)) := by
  refine ⟨⟨by decide, by decide, rfl, rfl⟩, ⟨by decide, by decide, rfl⟩,
    ⟨by decide, by decide, longData_noLF, longData_noCR, ?_, rfl⟩,
    ⟨by decide, by decide, _, rfl, rfl⟩⟩
  rw [longRecord_scan]
  rfl

/-- C7 (amended): on a root whose config is present, has positive widths and a
total width representable as an `int`, for every boundary-valid code without tab
and without line feed and every data string without line-break characters, empty
or not, with or without further tabs: after `Load` of a stream that holds the
single line `code + TAB + data`, ended by nothing, by a line feed or by carriage
return and line feed, and shorter than the 64 KiB of the scanner's buffer,
`Find(code)` succeeds and the `Data` of the node is exactly `data`. -/
theorem C7_first_tab_only (rgn : Region) (conf : Conf) (code data eol : GoString)
    (hc : rgn.Conf = some conf) (hpos : Positive conf) (hfit : Fits conf)
    (hbv : BoundaryValid conf code) (htab : TAB ∉ code) (hlf : LF ∉ code)
    (hd1 : LF ∉ data) (hd2 : CR ∉ data)
    (heol : eol = [] ∨ eol = [LF] ∨ eol = [CR, LF])
    (hlen : ((code ++ TAB :: data) ++ eol).length < MaxScanTokenSize) :
    ∃ rgn1 node, Load rgn (NewScanner ⟨(code ++ TAB :: data) ++ eol, none⟩) =
        Outcome.ret (rgn1, none) ∧
      Find rgn1 code = Outcome.ret (some node, none) ∧ node.Data = data := by
  have hline : LF ∉ code ++ TAB :: data := by
    intro hm
    rcases List.mem_append.mp hm with h1 | h1
    · exact hlf h1
    · rcases List.mem_cons.mp h1 with h2 | h2
      · exact absurd h2 (by decide)
      · exact hd1 h2
  rw [newScanner_single (code ++ TAB :: data) eol none (by simp) hline
    (last_of_record code data hd2) heol hlen]
  exact find_after_load rgn conf [] [] (code ++ TAB :: data) code data hc hpos hfit hbv
    (cutFirst_append code data htab) (by intro l hl; cases hl)

/-- C7, witness: the test root and the line `"1<TAB>亚洲<TAB>Asia"` of the test
data, whose payload holds a second tab, ended by a line feed. -/
theorem C7_first_tab_only_witness :
    ∃ rgn1 node,
      Load newRegion
        (NewScanner ⟨([49] ++ TAB :: [228, 186, 154, 230, 180, 178, 9, 65, 115, 105, 97]) ++
          [LF], none⟩) = Outcome.ret (rgn1, none) ∧
      Find rgn1 [49] = Outcome.ret (some node, none) ∧
      node.Data = [228, 186, 154, 230, 180, 178, 9, 65, 115, 105, 97] :=
  C7_first_tab_only newRegion rootRegionConf [49]
    [228, 186, 154, 230, 180, 178, 9, 65, 115, 105, 97] [LF] rfl (by decide) (by decide)
    (by decide) (by decide) (by decide) (by decide) (by decide) (Or.inr (Or.inl rfl))
    (by decide)

/-- C9, counterexample: a reader that never fails and delivers one line of 65536
bytes makes `Load` on the test root return `bufio.ErrTooLong`, an error although
reading the stream did not fail; and on a root without config, or with the width
`[-1]`, the stream `"1<TAB>X"`, read to its end, makes `Load` panic instead of
returning nil. -/
theorem C9_counterexample :
    ((⟨longLine, none⟩ : Reader).Fail = none ∧
      Load newRegion (NewScanner ⟨longLine, none⟩) =
        Outcome.ret (newRegion, some ErrTooLong)) ∧
    Load (NewRegion [] none SupPtr.nil none) (NewScanner ⟨[49, 9, 88], none⟩) =
      Outcome.panic ∧
    Load (NewRegion [] (some negativeConf) SupPtr.nil none)
      (NewScanner ⟨[49, 9, 88], none⟩) = Outcome.panic := by
  refine ⟨⟨rfl, ?_⟩, rfl, rfl⟩
  rw [newScanner_too_long longLine none longLine_noLF
    (by simp only [longLine, MaxScanTokenSize, List.length_replicate]; omega)]
  rfl

/-- C9 (amended): on a root whose config is present, has non-negative widths and
a total width representable as an `int`, `Load` returns, whatever the lines
contain: it returns `bufio.ErrTooLong` when the stream holds a line of 64 KiB or
more; otherwise it returns an error exactly when reading the stream fails, and
then the reader's own error unchanged, and nil for a stream read to its end. -/
theorem C9_load_error (rgn : Region) (conf : Conf) (r : Reader)
    (hc : rgn.Conf = some conf) (hnn : NonNeg conf) (hfit : Fits conf) :
    ∃ rgn1 err, Load rgn (NewScanner r) = Outcome.ret (rgn1, err) ∧
      (LongRun r.Content → err = some ErrTooLong) ∧
      (¬ LongRun r.Content → err = r.Fail) := by
  obtain ⟨r1, h1, _⟩ := loadLines_ret rgn conf (NewScanner r).Lines hc hnn hfit
  refine ⟨r1, (NewScanner r).Err, by simp only [Load, h1], ?_, ?_⟩
  · intro hlong
    have h := (scanLines_err_iff r.Content [] (by simp)
      (by unfold MaxScanTokenSize; simp)).mpr (by simpa using hlong)
    simp only [NewScanner, h]
  · intro hshort
    have hne : (scanLines r.Content []).2 ≠ some ErrTooLong := by
      intro h
      apply hshort
      have := (scanLines_err_iff r.Content [] (by simp)
        (by unfold MaxScanTokenSize; simp)).mp h
      simpa using this
    rcases scanLines_err r.Content [] with h | h
    · simp only [NewScanner, h]
    · exact absurd h hne

/-- C9, witness: the test root and a reader that delivers a line without tab, a
line with an invalid code, an empty line and a valid record, and then fails. -/
theorem C9_load_error_witness :
    ∃ rgn1 err,
      Load newRegion
        (NewScanner ⟨[49, 48, 10, 49, 48, 9, 65, 10, 10, 49, 9, 66, 10],
          some (GoError.stream 3)⟩) = Outcome.ret (rgn1, err) ∧
      (LongRun (⟨[49, 48, 10, 49, 48, 9, 65, 10, 10, 49, 9, 66, 10],
          some (GoError.stream 3)⟩ : Reader).Content → err = some ErrTooLong) ∧
      (¬ LongRun (⟨[49, 48, 10, 49, 48, 9, 65, 10, 10, 49, 9, 66, 10],
          some (GoError.stream 3)⟩ : Reader).Content →
        err = (⟨[49, 48, 10, 49, 48, 9, 65, 10, 10, 49, 9, 66, 10],
          some (GoError.stream 3)⟩ : Reader).Fail) :=
  C9_load_error newRegion rootRegionConf
    ⟨[49, 48, 10, 49, 48, 9, 65, 10, 10, 49, 9, 66, 10], some (GoError.stream 3)⟩
    rfl (by decide) (by decide)

end RegionQuery
